import Mathlib

/-!
# Search engine core: inverted index, BM25, link authority, query merge

A shallow embedding of the indexing and ranking code of the repository
(`src/index/buildIndex.js`, `src/rank/bm25.js`, `src/rank/pagerank.js`,
`src/serach/search.js`) together with theorems about it.

Conventions of the embedding.

* A JavaScript object used as a string-keyed map is the list of its own
  enumerable properties in insertion order (`JSObject`).  Reading a property
  follows the prototype chain: a key that is not an own property but names a
  member of `Object.prototype` reads as that inherited member.
* JavaScript numbers are modelled by exact arithmetic in a linear ordered
  field (`ℚ` for evaluation, `ℝ` where a logarithm is needed); rounding and
  division by zero are outside the model.
* A BM25 score is a number or `NaN` (`JSNumber`): the read `docLength[docId]`
  of a docId that is not in the corpus is `undefined` and makes the score
  `NaN`, as in the source.
* In `search.js` and `pagerank.js` a run that would use an `undefined` value
  where a record or a number is needed is reported as `none`; for `search`
  this is the `TypeError` of `doc.title` on an `undefined` document.
* Keys are the keys the pipeline produces: docIds `doc_<n>`, page URLs, and
  tokens of the tokenizer (letters `a`–`z`).
-/

namespace SearchEngine

/-! ## JavaScript objects as string-keyed maps -/

/-- Own enumerable properties of a JavaScript object, in insertion order. -/
abbrev JSObject (V : Type) := List (String × V)

/-- Own property read: `Object.hasOwn(o, key) ? o[key] : undefined`. -/
def getOwn {V : Type} : JSObject V → String → Option V
  | [], _ => none
  | (k, v) :: rest, key => if k = key then some v else getOwn rest key

/-- Property write `o[key] = x`: an existing own property keeps its place,
a new one is appended. -/
def setOwn {V : Type} : JSObject V → String → V → JSObject V
  | [], key, x => [(key, x)]
  | (k, v) :: rest, key, x =>
    if k = key then (k, x) :: rest else (k, v) :: setOwn rest key x

/-- The keys `Object.keys(o)` of an object. -/
def keys {V : Type} (o : JSObject V) : List String := o.map Prod.fst

/-- Names every plain object inherits from `Object.prototype`. -/
def objectPrototypeNames : List String :=
  ["constructor", "__defineGetter__", "__defineSetter__", "hasOwnProperty",
   "__lookupGetter__", "__lookupSetter__", "isPrototypeOf",
   "propertyIsEnumerable", "toString", "valueOf", "__proto__", "toLocaleString"]

/-- Result of the property read `o[key]` on a plain object. -/
inductive Lookup (V : Type) where
  | own (v : V)
  | inherited
  | undefined
  deriving Repr, DecidableEq

/-- Property read `o[key]` on an object created by `{}` or `JSON.parse`:
an own property, else a member inherited from `Object.prototype` (a function
or object, hence truthy), else `undefined`. -/
def getProp {V : Type} (o : JSObject V) (key : String) : Lookup V :=
  match getOwn o key with
  | some v => Lookup.own v
  | none => if key ∈ objectPrototypeNames then Lookup.inherited else Lookup.undefined

/-- A loop over a list whose body may hit an `undefined` read: the run stops
with `none` at the first such body. -/
def forEach {S B : Type} (body : S → B → Option S) : S → List B → Option S
  | s, [] => some s
  | s, x :: rest =>
    match body s x with
    | none => none
    | some s1 => forEach body s1 rest

/-! ## Data model -/

/-- A corpus document of `documents.json` after tokenization. -/
structure Document where
  docId : String
  url : String
  title : String
  tokens : List String
  length : Nat
  deriving Repr, DecidableEq

/-- A posting: docId ↦ term frequency. -/
abbrev Posting := JSObject Nat

/-- The inverted index: term ↦ posting. -/
abbrev Index := JSObject Posting

/-! ## `src/index/buildIndex.js` -/

/-- Lines 16–19 of `buildIndex.js` on the posting object:
`if(!posting[docId]) posting[docId] = 0; posting[docId]++`. -/
def countIn (posting : Posting) (docId : String) : Posting :=
  let posting1 :=
    match getOwn posting docId with
    | some (_ + 1) => posting
    | _ => setOwn posting docId 0
  setOwn posting1 docId ((getOwn posting1 docId).getD 0 + 1)

/-- Body of the inner loop of `buildIndex.js` (lines 13–19) for one token.
When `invertedIndex[word]` reads as an inherited member of `Object.prototype`
the guard of line 13 is false, so no posting is created, and lines 16–19 write
the counter on the inherited member: `invertedIndex` gets no own property. -/
def indexWord (docId : String) (invertedIndex : Index) (word : String) : Index :=
  match getProp invertedIndex word with
  | Lookup.undefined => setOwn invertedIndex word (countIn [] docId)
  | Lookup.own posting => setOwn invertedIndex word (countIn posting docId)
  | Lookup.inherited => invertedIndex

/-- The loops of `buildIndex.js` (lines 8–21); the result is the object that
`JSON.stringify` writes to `invertedIndex.json` (own properties only). -/
def buildIndex (documents : List Document) : Index :=
  documents.foldl (fun invertedIndex doc => doc.tokens.foldl (indexWord doc.docId) invertedIndex) []

/-- A corpus of one document whose text is the single word "constructor". -/
def constructorDocuments : List Document :=
  [{ docId := "doc_1", url := "https://example.org/1", title := "One",
     tokens := ["constructor"], length := 1 }]

/-- The entry `index[w][docId]` of an index artifact, `none` when absent. -/
def entry (index : Index) (w docId : String) : Option Nat :=
  (getOwn index w).bind (fun posting => getOwn posting docId)

/-- An entry that stores exactly `n` occurrences: absent when `n = 0`. -/
def storedCount (n : Nat) : Option Nat := if n = 0 then none else some n

/-- Number of occurrences of `w` in the documents whose docId is `x`. -/
def occurrences (documents : List Document) (w x : String) : Nat :=
  (documents.map (fun d => if d.docId = x then d.tokens.count w else 0)).sum

/-! ## `src/rank/bm25.js` -/

section BM25

variable {α : Type} [LinearOrderedField α]

/-- Constant `k1 = 1.5` of `bm25.js`. -/
def k1 : α := 1.5

/-- Constant `b = 0.75` of `bm25.js`. -/
def b : α := 0.75

/-- Line 14: `documents.reduce((sum,d)=> sum + d.length,0) / documents.length`. -/
def avgDocLen (documents : List Document) : α :=
  documents.foldl (fun sum d => sum + (d.length : α)) 0 / (documents.length : α)

/-- Lines 15–18: the object `docLength`, docId ↦ `doc.length`. -/
def docLength (documents : List Document) : JSObject Nat :=
  documents.foldl (fun docLength doc => setOwn docLength doc.docId doc.length) []

/-- The expression of line 29: `Math.log(1 + (N - df + 0.5) / (df + 0.5))`,
with `Math.log` as the parameter `ln`. -/
def idf (ln : α → α) (N df : Nat) : α :=
  ln (1 + ((N : α) - (df : α) + 0.5) / ((df : α) + 0.5))

/-- Lines 35–40: the score of one posting entry, from `idf`, `tf`, `dl` and
`avgDocLen`. -/
def termScore (idf : α) (tf dl : Nat) (avgDocLen : α) : α :=
  let numerator := (tf : α) * (k1 + 1)
  let denominator := (tf : α) + k1 * (1 - b + b * ((dl : α) / avgDocLen))
  idf * (numerator / denominator)

/-- A JavaScript number of the score computation: a number of the field, or
`NaN`, written `none`. -/
abbrev JSNumber (α : Type) := Option α

/-- The sum `scores[docId] + score` of line 43: `NaN` when the entry is
`undefined` or `NaN` or when `score` is `NaN`. -/
def plus : Option (JSNumber α) → JSNumber α → JSNumber α
  | some (some x), some y => some (x + y)
  | _, _ => none

/-- Lines 42–43: `if (!scores[docId]) scores[docId] = 0; scores[docId] += score`.
An entry that is `undefined`, `0` or `NaN` is falsy and is set to 0 first. -/
def addScore (scores : JSObject (JSNumber α)) (docId : String) (score : JSNumber α) :
    JSObject (JSNumber α) :=
  let scores1 :=
    match getOwn scores docId with
    | some (some v) => if v = 0 then setOwn scores docId (some 0) else scores
    | _ => setOwn scores docId (some 0)
  setOwn scores1 docId (plus (getOwn scores1 docId) score)

/-- Lines 33–40 for one property of the posting: the score of the entry.  The
read `docLength[docId]` is `undefined` for a docId that is not in the corpus;
`dl / avgDocLen` and with it the score are then `NaN`. -/
def entryScore (documents : List Document) (idf : α) (p : String × Nat) : JSNumber α :=
  match getOwn (docLength documents) p.1 with
  | none => none
  | some dl => some (termScore idf p.2 dl (avgDocLen documents))

/-- Body of the inner loop (lines 31–44) for one property of the posting:
`tf` is the value of the property `docId` that `for … in` enumerates. -/
def scoreEntry (documents : List Document) (idf : α) (scores : JSObject (JSNumber α))
    (p : String × Nat) : JSObject (JSNumber α) :=
  addScore scores p.1 (entryScore documents idf p)

/-- Body of the outer loop (lines 24–45) for one query term.  A term that is
not an own property of the index is skipped: it reads as `undefined`
(line 26), or as a member of `Object.prototype`, which has no enumerable
property, so that `for … in` runs zero times. -/
def scoreTerm (ln : α → α) (documents : List Document) (invertedIndex : Index)
    (scores : JSObject (JSNumber α)) (term : String) : JSObject (JSNumber α) :=
  match getOwn invertedIndex term with
  | none => scores
  | some posting =>
    let df := (keys posting).length
    posting.foldl (scoreEntry documents (idf ln documents.length df)) scores

/-- The function `bm25Score` (lines 20–48) for the module state `documents`,
`invertedIndex`: the score object it returns. -/
def bm25Score (ln : α → α) (documents : List Document) (invertedIndex : Index)
    (queryTokens : List String) : JSObject (JSNumber α) :=
  queryTokens.foldl (scoreTerm ln documents invertedIndex) []

/-- A score object all of whose entries are numbers. -/
def numbers (scores : JSObject α) : JSObject (JSNumber α) :=
  scores.map (fun p => (p.1, some p.2))

/-- Lines 42–43 on a score object whose entries are numbers, for a score that
is a number. -/
def addNumber (scores : JSObject α) (docId : String) (score : α) : JSObject α :=
  let scores1 :=
    match getOwn scores docId with
    | some v => if v = 0 then setOwn scores docId 0 else scores
    | none => setOwn scores docId 0
  setOwn scores1 docId ((getOwn scores1 docId).getD 0 + score)

/-- The corpus and the index fit together: every posting is an object (its
keys are pairwise distinct) and every docId in a posting is the docId of a
corpus document. -/
def WellFormedIndex (documents : List Document) (index : Index) : Prop :=
  ∀ p ∈ index, (keys p.2).Nodup ∧ ∀ d ∈ keys p.2, d ∈ documents.map Document.docId

instance wellFormedIndexDecidable (documents : List Document) (index : Index) :
    Decidable (WellFormedIndex documents index) := by
  unfold WellFormedIndex
  infer_instance

/-- Every docId in a posting of the index is the docId of a corpus document. -/
def IndexWithinCorpus (documents : List Document) (index : Index) : Prop :=
  ∀ p ∈ index, ∀ d ∈ keys p.2, d ∈ documents.map Document.docId

instance indexWithinCorpusDecidable (documents : List Document) (index : Index) :
    Decidable (IndexWithinCorpus documents index) := by
  unfold IndexWithinCorpus
  infer_instance

/-- The additions `scores[docId] += score` that the inner loop performs for
one posting, in order. -/
def additions (documents : List Document) (idf : α) (posting : Posting) : List (String × α) :=
  posting.map (fun p =>
    (p.1, termScore idf p.2 ((getOwn (docLength documents) p.1).getD 0) (avgDocLen documents)))

/-- The additions that one query term causes. -/
def termAdditions (ln : α → α) (documents : List Document) (invertedIndex : Index)
    (term : String) : List (String × α) :=
  match getOwn invertedIndex term with
  | none => []
  | some posting => additions documents (idf ln documents.length (keys posting).length) posting

/-- A sequence of additions applied to a score object. -/
def applyAdditions (scores : JSObject α) (adds : List (String × α)) : JSObject α :=
  adds.foldl (fun scores p => addNumber scores p.1 p.2) scores

/-- An entry after the amounts `amounts` were added to it: unchanged when
there is none, else the old value (0 when absent) plus their sum. -/
def extend (old : Option α) (amounts : List α) : Option α :=
  match amounts with
  | [] => old
  | _ :: _ => some (old.getD 0 + amounts.sum)

/-- The amounts a sequence of additions adds to the entry of `docId`. -/
def amountsFor (adds : List (String × α)) (docId : String) : List α :=
  (adds.filter (fun p => decide (p.1 = docId))).map Prod.snd

/-- Reference definition of one summand of the BM25 score, in the words of
the specification: defined when the token `t` is in the index and `d` is in
its posting; `tf = index[t][d]`, `dl = docLength[d]`, `df` the number of
docIds in the posting of `t`,
`idf = ln(1 + (N - df + 0.5)/(df + 0.5))`, `k1 = 1.5`, `b = 0.75`. -/
def referenceContribution (ln : α → α) (N : Nat) (avgLen : α) (lengths : JSObject Nat)
    (index : Index) (d t : String) : Option α :=
  match getOwn index t with
  | none => none
  | some posting =>
    match getOwn posting d, getOwn lengths d with
    | some tf, some dl =>
      let df := (keys posting).length
      let idfT := ln (1 + ((N : α) - (df : α) + 0.5) / ((df : α) + 0.5))
      some (idfT * ((tf : α) * (1.5 + 1)) / ((tf : α) + 1.5 * (1 - 0.75 + 0.75 * ((dl : α) / avgLen))))
    | _, _ => none

/-- Reference definition of the BM25 score map: the entry of `d` is the sum
of the summands over the positions of the query that have one, and is absent
when no position has one. -/
def referenceScore (ln : α → α) (N : Nat) (avgLen : α) (lengths : JSObject Nat)
    (index : Index) (q : List String) (d : String) : Option α :=
  extend none (q.filterMap (referenceContribution ln N avgLen lengths index d))

/-- The example corpus of the specification: three documents with tokens
`["cat","dog"]`, `["dog","dog","bird"]`, `["cat","bird","bird"]`. -/
def exampleDocuments : List Document :=
  [{ docId := "doc_1", url := "https://example.org/1", title := "One",
     tokens := ["cat", "dog"], length := 2 },
   { docId := "doc_2", url := "https://example.org/2", title := "Two",
     tokens := ["dog", "dog", "bird"], length := 3 },
   { docId := "doc_3", url := "https://example.org/3", title := "Three",
     tokens := ["cat", "bird", "bird"], length := 3 }]

end BM25

/-! ## `src/serach/search.js` -/

/-- The set `stopwords` of `search.js` (lines 11–14). -/
def stopwords : List String :=
  ["the", "is", "a", "an", "to", "of", "in", "on",
   "and", "or", "for", "with", "at", "by"]

/-- The part of `String.prototype.toLowerCase` that can produce a letter
`a`–`z`: the ASCII capitals, KELVIN SIGN (U+212A) and LATIN CAPITAL LETTER I
WITH DOT ABOVE (U+0130).  Every other character is mapped by `toLowerCase` to
characters outside `[a-z\s]` (or is whitespace and unchanged), so keeping it
as it is does not change what the following `replace` keeps. -/
def lowerChar (c : Char) : List Char :=
  if 65 ≤ c.toNat ∧ c.toNat ≤ 90 then [Char.ofNat (c.toNat + 32)]
  else if c.toNat = 0x212A then [Char.ofNat 107]
  else if c.toNat = 0x0130 then [Char.ofNat 105, Char.ofNat 0x0307]
  else [c]

/-- The text `.toLowerCase()`. -/
def toLowerCase (text : List Char) : List Char := text.flatMap lowerChar

/-- The regular expression class `[a-z]`. -/
def isLowerLetter (c : Char) : Bool := decide (97 ≤ c.toNat ∧ c.toNat ≤ 122)

/-- The regular expression class `\s` of ECMAScript. -/
def isWhiteSpace (c : Char) : Bool :=
  decide (c.toNat ∈ [0x9, 0xA, 0xB, 0xC, 0xD, 0x20, 0xA0, 0x1680, 0x2028, 0x2029,
    0x202F, 0x205F, 0x3000, 0xFEFF]) || decide (0x2000 ≤ c.toNat ∧ c.toNat ≤ 0x200A)

/-- The call `.replace(/[^a-z\s]/g, "")`. -/
def stripNonLetters (text : List Char) : List Char :=
  text.filter (fun c => isLowerLetter c || isWhiteSpace c)

/-- The call `.split(/\s+/)`: the pieces between maximal runs of whitespace
(`cur` is the current piece, reversed; `inSep` tells that the previous
character was whitespace). -/
def splitWhiteSpace : List Char → List Char → Bool → List (List Char)
  | [], cur, _ => [cur.reverse]
  | c :: rest, cur, inSep =>
    if isWhiteSpace c then
      if inSep then splitWhiteSpace rest [] true
      else cur.reverse :: splitWhiteSpace rest [] true
    else splitWhiteSpace rest (c :: cur) false

/-- The function `tokenize` of `search.js` (lines 16–22). -/
def tokenize (text : String) : List String :=
  ((splitWhiteSpace (stripNonLetters (toLowerCase text.toList)) [] false).map String.mk).filter
    (fun w => decide (w.length > 1) && !(decide (w ∈ stopwords)))

/-- An entry of the authority artifact `pageRank.json`. -/
structure PageRankEntry (α : Type) where
  docId : String
  url : String
  score : α
  deriving Repr, DecidableEq

/-- A search result (lines 43–48). -/
structure SearchResult (α : Type) where
  docId : String
  title : String
  url : String
  score : α
  deriving Repr, DecidableEq

section Search

variable {α : Type} [LinearOrderedField α]

/-- Lines 23–26: `pageRanks.forEach(p => { pageRankMap[p.docId] = p.score })`. -/
def pageRankMap (pageRanks : List (PageRankEntry α)) : JSObject α :=
  pageRanks.foldl (fun pageRankMap p => setOwn pageRankMap p.docId p.score) []

/-- Line 35: `pageRankMap[docId] || 0`. -/
def authority (pageRanks : List (PageRankEntry α)) (docId : String) : α :=
  match getOwn (pageRankMap pageRanks) docId with
  | some score => if score = 0 then 0 else score
  | none => 0

/-- Body of the loop of `search` (lines 34–48) for one entry of
`relevanceScores`.  `documents.find` yields `undefined` for a docId that is
not in the corpus and `doc.title` (line 45) then throws a `TypeError`: that run
is `none`.  A score that is `NaN` belongs to a docId that is not in the corpus
(theorem `bm25Score_number_of_corpus`), for which line 45 has thrown; the model
has no result with the score `NaN`. -/
def pushResult (documents : List Document) (pageRanks : List (PageRankEntry α))
    (results : List (SearchResult α)) (p : String × JSNumber α) :
    Option (List (SearchResult α)) :=
  let pr := authority pageRanks p.1
  match documents.find? (fun d => decide (d.docId = p.1)) with
  | none => none
  | some doc =>
    match p.2 with
    | none => none
    | some bm25 =>
      let finalScore := bm25 * 0.7 + pr * 0.3
      some (results ++ [{ docId := p.1, title := doc.title, url := doc.url, score := finalScore }])

/-- The list `results` before sorting (lines 29–49). -/
def searchResults (ln : α → α) (documents : List Document) (invertedIndex : Index)
    (pageRanks : List (PageRankEntry α)) (query : String) : Option (List (SearchResult α)) :=
  let relevanceScores := bm25Score ln documents invertedIndex (tokenize query)
  forEach (pushResult documents pageRanks) [] relevanceScores

/-- The comparator `(a, b) => b.score - a.score` of line 50, as the order
"the comparator does not put `b` before `a`". -/
def byScore (a b : SearchResult α) : Prop := b.score - a.score ≤ 0

instance byScoreDecidable : DecidableRel (byScore : SearchResult α → SearchResult α → Prop) :=
  fun a b => inferInstanceAs (Decidable (b.score - a.score ≤ 0))

/-- The function `search` (lines 28–53): `Array.prototype.sort` is a stable
sort, here insertion sort; `slice(0, 10)` keeps the first ten. -/
def search (ln : α → α) (documents : List Document) (invertedIndex : Index)
    (pageRanks : List (PageRankEntry α)) (query : String) : Option (List (SearchResult α)) :=
  match searchResults ln documents invertedIndex pageRanks query with
  | none => none
  | some results => some ((results.insertionSort byScore).take 10)

/-- An authority artifact for the example corpus (the third document has no
entry). -/
def examplePageRanks : List (PageRankEntry α) :=
  [{ docId := "doc_1", url := "https://example.org/1", score := 1 / 4 },
   { docId := "doc_2", url := "https://example.org/2", score := 1 / 2 }]

end Search


/-- A record of `rawPages.json`. -/
structure RawPage where
  url : String
  html : String
  link : List String
  deriving Repr, DecidableEq

/-! ## `src/processor/tokenize.js` and `src/processor/extractText.js` -/

/-- A document of `documents.json` as `extractText.js` writes it. -/
structure ExtractedDocument where
  docId : String
  url : String
  title : String
  rawText : String
  deriving Repr, DecidableEq

namespace Processor

/-- The set `stopwWords` of `tokenize.js` (lines 4–7). -/
def stopwWords : List String :=
  ["the", "is", "a", "an", "to", "of", "in", "on",
   "and", "or", "for", "with", "at", "by"]

/-- The function `tokenize` of `tokenize.js` (lines 14–16). -/
def tokenize (text : String) : List String :=
  ((splitWhiteSpace (stripNonLetters (toLowerCase text.toList)) [] false).map String.mk).filter
    (fun word => decide (word.length > 1) && !(decide (word ∈ stopwWords)))

/-- The map of `tokenize.js` (lines 18–27): each document with its tokens
and their number. -/
def processedDocuments (documents : List ExtractedDocument) : List Document :=
  documents.map (fun doc =>
    let tokens := tokenize doc.rawText
    { docId := doc.docId, url := doc.url, title := doc.title, tokens := tokens,
      length := tokens.length })

end Processor

/-- The loop of `extractText.js` (lines 7–28) from index `i` on.  What cheerio
extracts from the page (the trimmed title, the trimmed text of the paragraphs)
is given by the parameters `extractTitle` and `extractBody`. -/
def extractFrom (extractTitle extractBody : String → String) :
    List RawPage → Nat → List ExtractedDocument
  | [], _ => []
  | page :: rest, i =>
    { docId := "doc_" ++ toString (i + 1), url := page.url, title := extractTitle page.html,
      rawText := extractBody page.html } :: extractFrom extractTitle extractBody rest (i + 1)

/-- The array `documents` that `extractText.js` writes. -/
def extractText (extractTitle extractBody : String → String) (rawPages : List RawPage) :
    List ExtractedDocument :=
  extractFrom extractTitle extractBody rawPages 0

/-- Value of a string of decimal digits, read from the left. -/
def digitsValue (acc : Nat) (ds : List Char) : Nat :=
  ds.foldl (fun a c => 10 * a + (c.toNat - 48)) acc

/-! ## `src/rank/pagerank.js` -/

/-- Constant `iterations = 10` of `pagerank.js`. -/
def iterations : Nat := 10

/-- Line 10: `rawPages.map(p => p.url)`. -/
def pages (rawPages : List RawPage) : List String := rawPages.map RawPage.url

/-- Lines 16–19: `linksMap[p.url] = p.link.filter(l => pages.includes(l))`. -/
def linksMap (rawPages : List RawPage) : JSObject (List String) :=
  rawPages.foldl
    (fun linksMap p => setOwn linksMap p.url (p.link.filter (fun l => decide (l ∈ pages rawPages))))
    []

/-- The three-page cycle of the specification: A → B, B → C, C → A. -/
def cyclePages : List RawPage :=
  [{ url := "https://example.org/a", html := "", link := ["https://example.org/b"] },
   { url := "https://example.org/b", html := "", link := ["https://example.org/c"] },
   { url := "https://example.org/c", html := "", link := ["https://example.org/a"] }]

/-- Three pages of which the third has no outbound link to a known page; the
first has a duplicate link, a self-link and a link to an unknown page. -/
def danglingPages : List RawPage :=
  [{ url := "https://example.org/a", html := "",
     link := ["https://example.org/b", "https://example.org/x", "https://example.org/b",
              "https://example.org/a"] },
   { url := "https://example.org/b", html := "", link := ["https://example.org/c"] },
   { url := "https://example.org/c", html := "", link := ["https://example.org/y"] }]

/-- Two raw pages with the same URL and different links. -/
def repeatedPages : List RawPage :=
  [{ url := "https://example.org/a", html := "", link := ["https://example.org/a"] },
   { url := "https://example.org/a", html := "", link := [] }]

section PageRank

variable {α : Type} [LinearOrderedField α]

/-- Constant `damping = 0.85` of `pagerank.js`. -/
def damping : α := 0.85

/-- Lines 12–15: every page gets the rank `1 / N`. -/
def initialRanks (rawPages : List RawPage) : JSObject α :=
  (pages rawPages).foldl (fun ranks url => setOwn ranks url (1 / ((pages rawPages).length : α))) []

/-- Lines 21–25: every page gets the base rank `(1 - damping) / N`. -/
def baseRanks (rawPages : List RawPage) : JSObject α :=
  (pages rawPages).foldl
    (fun newRanks url => setOwn newRanks url ((1 - damping) / ((pages rawPages).length : α))) []

/-- Line 34: `newRanks[dest] += damping * share`; a read of an absent
`newRanks[dest]` is `none`. -/
def addShare (share : α) (newRanks : JSObject α) (dest : String) : Option (JSObject α) :=
  match getOwn newRanks dest with
  | none => none
  | some r => some (setOwn newRanks dest (r + damping * share))

/-- Lines 27–36 for one page `url`; the reads `linksMap[url]` and `ranks[url]`
are `none` when absent. -/
def distribute (rawPages : List RawPage) (ranks newRanks : JSObject α) (url : String) :
    Option (JSObject α) :=
  match getOwn (linksMap rawPages) url with
  | none => none
  | some outgoing =>
    if outgoing.length = 0 then some newRanks
    else
      match getOwn ranks url with
      | none => none
      | some r =>
        let share := r / (outgoing.length : α)
        forEach (addShare share) newRanks outgoing

/-- One pass of the loop body (lines 21–38): the new value of `ranks`. -/
def iterate (rawPages : List RawPage) (ranks : JSObject α) : Option (JSObject α) :=
  forEach (distribute rawPages ranks) (baseRanks rawPages) (pages rawPages)

/-- The value of `ranks` after `k` passes of the loop of line 20. -/
def ranksAfter (rawPages : List RawPage) : Nat → Option (JSObject α)
  | 0 => some (initialRanks rawPages)
  | k + 1 =>
    match ranksAfter rawPages k with
    | none => none
    | some ranks => iterate rawPages ranks

/-- The reads `ranks[url]` for a list of pages, `none` when one is absent. -/
def readRanks (ranks : JSObject α) : List String → Option (List α)
  | [] => some []
  | url :: rest =>
    match getOwn ranks url with
    | none => none
    | some score =>
      match readRanks ranks rest with
      | none => none
      | some scores => some (score :: scores)

/-- The scores `ranks[url]` of the pages, in page order, after `k` passes. -/
def scoresAfter (rawPages : List RawPage) (k : Nat) : Option (List α) :=
  match ranksAfter rawPages k with
  | none => none
  | some ranks => readRanks ranks (pages rawPages)

/-- Lines 41–45, `pages.map((url, i) => …)` from index `i` on: docId
`doc_<i+1>`, the url and `ranks[url]`. -/
def rankEntries (ranks : JSObject α) : List String → Nat → Option (List (PageRankEntry α))
  | [], _ => some []
  | url :: rest, i =>
    match getOwn ranks url with
    | none => none
    | some score =>
      match rankEntries ranks rest (i + 1) with
      | none => none
      | some entries =>
        some ({ docId := "doc_" ++ toString (i + 1), url := url, score := score } :: entries)

/-- The artifact `pageRankData` after `k` passes of the loop. -/
def pageRankDataAfter (rawPages : List RawPage) (k : Nat) : Option (List (PageRankEntry α)) :=
  match ranksAfter rawPages k with
  | none => none
  | some ranks => rankEntries ranks (pages rawPages) 0

/-- The artifact written to `pageRank.json`. -/
def pageRankData (rawPages : List RawPage) : Option (List (PageRankEntry α)) :=
  pageRankDataAfter rawPages iterations

/-- The rank `m[url]` as a number, 0 when absent. -/
def rankOf (m : JSObject α) (url : String) : α := (getOwn m url).getD 0

/-- Sum of the ranks `m[url]` over a list of pages. -/
def massOf (urls : List String) (m : JSObject α) : α := (urls.map (rankOf m)).sum

/-- Every listed page has a rank in `m`, and that rank is at least `c`. -/
def RanksAtLeast (urls : List String) (c : α) (m : JSObject α) : Prop :=
  ∀ u ∈ urls, ∃ v, getOwn m u = some v ∧ c ≤ v

/-- The rank that page `url` hands on in a pass: its rank when it has an
outbound link to a known page, else nothing. -/
def linkedRank (rawPages : List RawPage) (ranks : JSObject α) (url : String) : α :=
  match getOwn (linksMap rawPages) url with
  | some (_ :: _) => rankOf ranks url
  | _ => 0

/-- Sum of the ranks, before a pass, of the pages that have at least one
outbound link to a known page. -/
def linkedMass (rawPages : List RawPage) (ranks : JSObject α) : α :=
  ((pages rawPages).map (linkedRank rawPages ranks)).sum

/-- The share of the rank of page `s` that a pass hands to page `t`: the
number of kept links of `s` to `t` over the number of kept links of `s`. -/
def weight (rawPages : List RawPage) (s t : String) : α :=
  match getOwn (linksMap rawPages) s with
  | some (d :: rest) => (((d :: rest).count t : Nat) : α) / (((d :: rest).length : Nat) : α)
  | _ => 0

end PageRank

/-! ## Basic facts about property reads and writes -/

theorem getOwn_setOwn_self {V : Type} (o : JSObject V) (k : String) (x : V) :
    getOwn (setOwn o k x) k = some x := by
  induction o with
  | nil => simp [setOwn, getOwn]
  | cons p rest ih =>
    obtain ⟨k0, v0⟩ := p
    by_cases h : k0 = k
    · simp [setOwn, getOwn, h]
    · simp [setOwn, getOwn, h, ih]

theorem getOwn_setOwn_ne {V : Type} (o : JSObject V) (k key : String) (x : V) (hne : k ≠ key) :
    getOwn (setOwn o k x) key = getOwn o key := by
  induction o with
  | nil => simp [setOwn, getOwn, hne]
  | cons p rest ih =>
    obtain ⟨k0, v0⟩ := p
    by_cases h : k0 = k
    · subst h
      simp [setOwn, getOwn, hne]
    · by_cases h2 : k0 = key
      · subst h2
        simp [setOwn, getOwn, h]
      · simp [setOwn, getOwn, h, h2, ih]

theorem getOwn_countIn_self (posting : Posting) (docId : String) :
    getOwn (countIn posting docId) docId = some ((getOwn posting docId).getD 0 + 1) := by
  unfold countIn
  rw [getOwn_setOwn_self]
  cases h : getOwn posting docId with
  | none => simp [getOwn_setOwn_self]
  | some n =>
    cases n with
    | zero => simp [getOwn_setOwn_self]
    | succ m => simp [h]

theorem getOwn_countIn_ne (posting : Posting) (docId key : String) (hne : docId ≠ key) :
    getOwn (countIn posting docId) key = getOwn posting key := by
  unfold countIn
  rw [getOwn_setOwn_ne _ _ _ _ hne]
  cases h : getOwn posting docId with
  | none => simp [getOwn_setOwn_ne _ _ _ _ hne]
  | some n =>
    cases n with
    | zero => simp [getOwn_setOwn_ne _ _ _ _ hne]
    | succ m => simp

/-- Effect of indexing one token on the entry of a term that is not a member
of `Object.prototype`. -/
theorem entry_indexWord (docId word w x : String) (index : Index)
    (hw : w ∉ objectPrototypeNames) :
    entry (indexWord docId index word) w x =
      if word = w ∧ docId = x then some ((entry index w x).getD 0 + 1) else entry index w x := by
  unfold indexWord getProp
  cases hget : getOwn index word with
  | some posting =>
    simp only
    by_cases hword : word = w
    · subst hword
      by_cases hx : docId = x
      · subst hx
        simp [entry, getOwn_setOwn_self, hget, getOwn_countIn_self]
      · simp [entry, getOwn_setOwn_self, hget, getOwn_countIn_ne _ _ _ hx, hx]
    · simp [entry, getOwn_setOwn_ne _ _ _ _ hword, hword]
  | none =>
    simp only
    by_cases hproto : word ∈ objectPrototypeNames
    · have hword : word ≠ w := fun h => hw (h ▸ hproto)
      simp [hproto, hword]
    · simp only [hproto, if_false]
      by_cases hword : word = w
      · subst hword
        by_cases hx : docId = x
        · subst hx
          simp [entry, getOwn_setOwn_self, hget, getOwn_countIn_self, getOwn]
        · simp [entry, getOwn_setOwn_self, hget, getOwn_countIn_ne _ _ _ hx, hx, getOwn]
      · simp [entry, getOwn_setOwn_ne _ _ _ _ hword, hword]

theorem entry_foldl_indexWord (docId w x : String) (hw : w ∉ objectPrototypeNames)
    (tokens : List String) (index : Index) (n : Nat) (h : entry index w x = storedCount n) :
    entry (tokens.foldl (indexWord docId) index) w x =
      storedCount (n + if docId = x then tokens.count w else 0) := by
  induction tokens generalizing index n with
  | nil => simpa using h
  | cons t rest ih =>
    rw [List.foldl_cons]
    by_cases hc : t = w ∧ docId = x
    · have h1 : entry (indexWord docId index t) w x = storedCount (n + 1) := by
        rw [entry_indexWord _ _ _ _ _ hw, if_pos hc, h]
        unfold storedCount
        by_cases hn : n = 0 <;> simp [hn]
      rw [ih _ _ h1]
      obtain ⟨ht, hd⟩ := hc
      subst ht
      simp [hd, List.count_cons_self]
      congr 1
      omega
    · have h1 : entry (indexWord docId index t) w x = storedCount n := by
        rw [entry_indexWord _ _ _ _ _ hw, if_neg hc, h]
      rw [ih _ _ h1]
      by_cases hd : docId = x
      · have ht : t ≠ w := fun ht => hc ⟨ht, hd⟩
        simp [hd, List.count_cons_of_ne ht.symm]
      · simp [hd]

theorem entry_foldl_documents (w x : String) (hw : w ∉ objectPrototypeNames)
    (documents : List Document) (index : Index) (n : Nat) (h : entry index w x = storedCount n) :
    entry (documents.foldl
        (fun invertedIndex doc => doc.tokens.foldl (indexWord doc.docId) invertedIndex) index) w x =
      storedCount (n + occurrences documents w x) := by
  induction documents generalizing index n with
  | nil => simpa [occurrences] using h
  | cons d rest ih =>
    rw [List.foldl_cons]
    rw [ih _ _ (entry_foldl_indexWord d.docId w x hw d.tokens index n h)]
    simp [occurrences, Nat.add_assoc]

theorem occurrences_of_nodup (documents : List Document) (w : String)
    (hnodup : (documents.map Document.docId).Nodup) (d : Document) (hd : d ∈ documents) :
    occurrences documents w d.docId = d.tokens.count w := by
  induction documents with
  | nil => simp at hd
  | cons e rest ih =>
    simp only [List.map_cons, List.nodup_cons] at hnodup
    rcases List.mem_cons.mp hd with rfl | hmem
    · have hzero : occurrences rest w d.docId = 0 := by
        unfold occurrences
        apply List.sum_eq_zero
        intro y hy
        obtain ⟨e, he, rfl⟩ := List.mem_map.mp hy
        have : e.docId ≠ d.docId := fun heq => hnodup.1 (heq ▸ List.mem_map_of_mem _ he)
        simp [this]
      have : occurrences (d :: rest) w d.docId = d.tokens.count w + occurrences rest w d.docId := by
        simp [occurrences]
      rw [this, hzero, Nat.add_zero]
    · have hne : e.docId ≠ d.docId := fun heq => hnodup.1 (heq ▸ List.mem_map_of_mem _ hmem)
      have : occurrences (e :: rest) w d.docId = occurrences rest w d.docId := by
        simp [occurrences, hne]
      rw [this, ih hnodup.2 hmem]

/-- For every term that `Object.prototype` does not define, the built index
stores exactly the occurrence counts, and no entry for a count of zero. -/
theorem buildIndex_entry (documents : List Document) (w : String)
    (hw : w ∉ objectPrototypeNames)
    (hnodup : (documents.map Document.docId).Nodup) (d : Document) (hd : d ∈ documents) :
    entry (buildIndex documents) w d.docId = storedCount (d.tokens.count w) := by
  unfold buildIndex
  rw [entry_foldl_documents w d.docId hw documents [] 0 (by simp [entry, getOwn, storedCount])]
  rw [occurrences_of_nodup documents w hnodup d hd, Nat.zero_add]

/-! ## Loops -/

theorem forEach_append {S B : Type} (body : S → B → Option S) (s : S) (xs ys : List B) :
    forEach body s (xs ++ ys) =
      match forEach body s xs with
      | none => none
      | some s1 => forEach body s1 ys := by
  induction xs generalizing s with
  | nil => simp [forEach]
  | cons x rest ih =>
    simp only [List.cons_append, forEach]
    cases body s x with
    | none => rfl
    | some s1 => exact ih s1

theorem getOwn_mem {V : Type} (o : JSObject V) (k : String) (v : V) (h : getOwn o k = some v) :
    (k, v) ∈ o := by
  induction o with
  | nil => simp [getOwn] at h
  | cons p rest ih =>
    obtain ⟨k0, v0⟩ := p
    by_cases hk : k0 = k
    · simp [getOwn, hk] at h
      simp [hk, h]
    · simp [getOwn, hk] at h
      exact List.mem_cons_of_mem _ (ih h)

theorem getOwn_isSome_iff {V : Type} (o : JSObject V) (k : String) :
    (getOwn o k).isSome = true ↔ k ∈ keys o := by
  induction o with
  | nil => simp [getOwn, keys]
  | cons p rest ih =>
    obtain ⟨k0, v0⟩ := p
    by_cases hk : k0 = k
    · simp [getOwn, keys, hk]
    · have hk2 : ¬ k = k0 := fun h => hk h.symm
      simp only [getOwn, hk, if_false, ih, keys, List.map_cons, List.mem_cons, hk2, false_or]

theorem getOwn_eq_none_iff {V : Type} (o : JSObject V) (k : String) :
    getOwn o k = none ↔ k ∉ keys o := by
  rw [← getOwn_isSome_iff]
  cases getOwn o k <;> simp

theorem keys_setOwn {V : Type} (o : JSObject V) (k : String) (x : V) :
    keys (setOwn o k x) = if k ∈ keys o then keys o else keys o ++ [k] := by
  induction o with
  | nil => simp [setOwn, keys]
  | cons p rest ih =>
    obtain ⟨k0, v0⟩ := p
    by_cases hk : k0 = k
    · simp [setOwn, keys, hk]
    · have hk2 : ¬ k = k0 := fun h => hk h.symm
      simp only [keys] at ih
      simp only [setOwn, hk, if_false, keys, List.map_cons, ih, List.mem_cons, hk2, false_or]
      split <;> simp

theorem nodup_keys_setOwn {V : Type} (o : JSObject V) (k : String) (x : V)
    (h : (keys o).Nodup) : (keys (setOwn o k x)).Nodup := by
  rw [keys_setOwn]
  split
  · exact h
  · rename_i hk
    exact List.Nodup.append h (List.nodup_singleton k) (by simpa using hk)

/-! ## BM25 -/

section BM25Facts

variable {α : Type} [LinearOrderedField α]

theorem getOwn_addNumber_self (scores : JSObject α) (docId : String) (score : α) :
    getOwn (addNumber scores docId score) docId = some ((getOwn scores docId).getD 0 + score) := by
  unfold addNumber
  rw [getOwn_setOwn_self]
  cases h : getOwn scores docId with
  | none => simp [getOwn_setOwn_self]
  | some v =>
    by_cases hv : v = 0
    · simp [hv, getOwn_setOwn_self]
    · simp [hv, h]

theorem getOwn_addNumber_ne (scores : JSObject α) (docId key : String) (score : α)
    (hne : docId ≠ key) :
    getOwn (addNumber scores docId score) key = getOwn scores key := by
  unfold addNumber
  rw [getOwn_setOwn_ne _ _ _ _ hne]
  cases h : getOwn scores docId with
  | none => simp [getOwn_setOwn_ne _ _ _ _ hne]
  | some v =>
    by_cases hv : v = 0
    · simp [hv, getOwn_setOwn_ne _ _ _ _ hne]
    · simp [hv]

theorem nodup_keys_addNumber (scores : JSObject α) (docId : String) (score : α)
    (h : (keys scores).Nodup) : (keys (addNumber scores docId score)).Nodup := by
  unfold addNumber
  apply nodup_keys_setOwn
  cases getOwn scores docId with
  | none => exact nodup_keys_setOwn _ _ _ h
  | some v =>
    by_cases hv : v = 0
    · simpa [hv] using nodup_keys_setOwn _ _ _ h
    · simpa [hv] using h

theorem extend_append (old : Option α) (xs ys : List α) :
    extend old (xs ++ ys) = extend (extend old xs) ys := by
  cases xs with
  | nil => simp [extend]
  | cons x xs =>
    cases ys with
    | nil => simp [extend]
    | cons y ys => simp [extend, add_assoc]

theorem getOwn_applyAdditions (scores : JSObject α) (adds : List (String × α)) (d : String) :
    getOwn (applyAdditions scores adds) d = extend (getOwn scores d) (amountsFor adds d) := by
  induction adds generalizing scores with
  | nil => simp [applyAdditions, amountsFor, extend]
  | cons p rest ih =>
    have hstep : applyAdditions scores (p :: rest) =
        applyAdditions (addNumber scores p.1 p.2) rest := rfl
    rw [hstep, ih]
    by_cases hp : p.1 = d
    · have : amountsFor (p :: rest) d = [p.2] ++ amountsFor rest d := by
        simp [amountsFor, hp]
      rw [this, extend_append, ← hp, getOwn_addNumber_self]
      simp [extend]
    · have : amountsFor (p :: rest) d = amountsFor rest d := by
        simp [amountsFor, hp]
      rw [this, getOwn_addNumber_ne _ _ _ _ hp]

theorem nodup_keys_applyAdditions (scores : JSObject α) (adds : List (String × α))
    (h : (keys scores).Nodup) : (keys (applyAdditions scores adds)).Nodup := by
  induction adds generalizing scores with
  | nil => simpa [applyAdditions] using h
  | cons p rest ih => exact ih _ (nodup_keys_addNumber _ _ _ h)

theorem applyAdditions_append (scores : JSObject α) (xs ys : List (String × α)) :
    applyAdditions scores (xs ++ ys) = applyAdditions (applyAdditions scores xs) ys := by
  simp [applyAdditions, List.foldl_append]

theorem getOwn_foldl_setOwn_isSome {V B : Type} (l : List B) (k : B → String) (v : B → V)
    (o : JSObject V) (key : String) :
    (getOwn (l.foldl (fun m x => setOwn m (k x) (v x)) o) key).isSome = true ↔
      (getOwn o key).isSome = true ∨ key ∈ l.map k := by
  induction l generalizing o with
  | nil => simp
  | cons x rest ih =>
    rw [List.foldl_cons, ih]
    by_cases hk : k x = key
    · subst hk
      simp [getOwn_setOwn_self]
    · have hk2 : ¬ key = k x := fun h => hk h.symm
      simp [getOwn_setOwn_ne _ _ _ _ hk, hk2]

theorem docLength_isSome_iff (documents : List Document) (d : String) :
    (getOwn (docLength documents) d).isSome = true ↔ d ∈ documents.map Document.docId := by
  unfold docLength
  rw [getOwn_foldl_setOwn_isSome documents Document.docId Document.length]
  simp [getOwn]

omit [LinearOrderedField α] in
theorem getOwn_numbers (scores : JSObject α) (d : String) :
    getOwn (numbers scores) d = (getOwn scores d).map some := by
  induction scores with
  | nil => rfl
  | cons p rest ih =>
    by_cases hk : p.1 = d
    · simp [numbers, getOwn, hk]
    · simp only [numbers] at ih
      simp [numbers, getOwn, hk, ih]

omit [LinearOrderedField α] in
theorem setOwn_numbers (scores : JSObject α) (d : String) (x : α) :
    setOwn (numbers scores) d (some x) = numbers (setOwn scores d x) := by
  induction scores with
  | nil => rfl
  | cons p rest ih =>
    by_cases hk : p.1 = d
    · simp [numbers, setOwn, hk]
    · simp only [numbers] at ih
      simp [numbers, setOwn, hk, ih]

omit [LinearOrderedField α] in
theorem keys_numbers (scores : JSObject α) : keys (numbers scores) = keys scores := by
  simp [keys, numbers, List.map_map, Function.comp_def]

theorem addScore_numbers (scores : JSObject α) (d : String) (x : α) :
    addScore (numbers scores) d (some x) = numbers (addNumber scores d x) := by
  unfold addScore addNumber
  rw [getOwn_numbers]
  cases hget : getOwn scores d with
  | none =>
    simp only [Option.map_none']
    rw [setOwn_numbers, getOwn_numbers, getOwn_setOwn_self]
    simp only [Option.map_some', plus, Option.getD_some]
    rw [setOwn_numbers]
  | some v =>
    simp only [Option.map_some']
    by_cases hv : v = 0
    · simp only [hv, if_true]
      rw [setOwn_numbers, getOwn_numbers, getOwn_setOwn_self]
      simp only [Option.map_some', plus, Option.getD_some]
      rw [setOwn_numbers]
    · simp only [hv, if_false]
      rw [getOwn_numbers, hget]
      simp only [Option.map_some', plus, Option.getD_some]
      rw [setOwn_numbers]

theorem entryScore_of_mem (documents : List Document) (idfT : α) (p : String × Nat)
    (h : p.1 ∈ documents.map Document.docId) :
    entryScore documents idfT p =
      some (termScore idfT p.2 ((getOwn (docLength documents) p.1).getD 0)
        (avgDocLen documents)) := by
  have hp : (getOwn (docLength documents) p.1).isSome = true :=
    (docLength_isSome_iff documents p.1).mpr h
  obtain ⟨dl, hdl⟩ := Option.isSome_iff_exists.mp hp
  simp [entryScore, hdl]

theorem entryScore_of_not_mem (documents : List Document) (idfT : α) (p : String × Nat)
    (h : p.1 ∉ documents.map Document.docId) : entryScore documents idfT p = none := by
  cases hdl : getOwn (docLength documents) p.1 with
  | none => simp [entryScore, hdl]
  | some dl =>
    exact absurd ((docLength_isSome_iff documents p.1).mp (by simp [hdl])) h

theorem foldl_scoreEntry (documents : List Document) (idfT : α) (posting : Posting)
    (scores : JSObject α)
    (h : ∀ d ∈ keys posting, d ∈ documents.map Document.docId) :
    posting.foldl (scoreEntry documents idfT) (numbers scores) =
      numbers (applyAdditions scores (additions documents idfT posting)) := by
  induction posting generalizing scores with
  | nil => rfl
  | cons p rest ih =>
    have hp : p.1 ∈ documents.map Document.docId := h p.1 (by simp [keys])
    have hrest : ∀ d ∈ keys rest, d ∈ documents.map Document.docId :=
      fun d hd => h d (by simp only [keys, List.map_cons, List.mem_cons]; exact Or.inr hd)
    simp only [List.foldl_cons, scoreEntry, entryScore_of_mem documents idfT p hp,
      addScore_numbers]
    rw [ih _ hrest]
    simp [additions, applyAdditions]

theorem scoreTerm_of_scored (ln : α → α) (documents : List Document) (index : Index)
    (term : String)
    (hterm : ∀ posting, getOwn index term = some posting →
      ∀ d ∈ keys posting, d ∈ documents.map Document.docId)
    (scores : JSObject α) :
    scoreTerm ln documents index (numbers scores) term =
      numbers (applyAdditions scores (termAdditions ln documents index term)) := by
  unfold scoreTerm termAdditions
  cases hget : getOwn index term with
  | none => simp [applyAdditions]
  | some posting =>
    simp only
    exact foldl_scoreEntry documents _ posting scores (hterm posting hget)

theorem foldl_scoreTerm_of_scored (ln : α → α) (documents : List Document) (index : Index)
    (q : List String)
    (hq : ∀ t ∈ q, ∀ posting, getOwn index t = some posting →
      ∀ d ∈ keys posting, d ∈ documents.map Document.docId)
    (scores : JSObject α) :
    q.foldl (scoreTerm ln documents index) (numbers scores) =
      numbers (applyAdditions scores (q.flatMap (termAdditions ln documents index))) := by
  induction q generalizing scores with
  | nil => simp [applyAdditions]
  | cons t rest ih =>
    rw [List.foldl_cons, scoreTerm_of_scored ln documents index t (hq t (List.mem_cons_self _ _)),
      ih (fun u hu => hq u (List.mem_cons_of_mem _ hu)), List.flatMap_cons,
      applyAdditions_append]

theorem bm25Score_of_scored (ln : α → α) (documents : List Document) (index : Index)
    (q : List String)
    (hq : ∀ t ∈ q, ∀ posting, getOwn index t = some posting →
      ∀ d ∈ keys posting, d ∈ documents.map Document.docId) :
    bm25Score ln documents index q =
      numbers (applyAdditions [] (q.flatMap (termAdditions ln documents index))) :=
  foldl_scoreTerm_of_scored ln documents index q hq []

theorem bm25Score_eq (ln : α → α) (documents : List Document) (index : Index)
    (hwf : IndexWithinCorpus documents index) (q : List String) :
    bm25Score ln documents index q =
      numbers (applyAdditions [] (q.flatMap (termAdditions ln documents index))) :=
  bm25Score_of_scored ln documents index q
    (fun t _ posting hget => hwf (t, posting) (getOwn_mem _ _ _ hget))

end BM25Facts

section BM25Reference

variable {α : Type} [LinearOrderedField α]

omit [LinearOrderedField α] in
theorem amountsFor_append (xs ys : List (String × α)) (d : String) :
    amountsFor (xs ++ ys) d = amountsFor xs d ++ amountsFor ys d := by
  simp [amountsFor]

theorem amountsFor_additions_of_not_mem (documents : List Document) (idfT : α)
    (posting : Posting) (d : String) (h : d ∉ keys posting) :
    amountsFor (additions documents idfT posting) d = [] := by
  induction posting with
  | nil => rfl
  | cons p rest ih =>
    simp only [keys, List.map_cons, List.mem_cons, not_or] at h
    have hne : ¬ p.1 = d := fun hp => h.1 hp.symm
    have hrest := ih h.2
    simp only [amountsFor, additions] at hrest ⊢
    simp [hne, hrest]

theorem amountsFor_additions (documents : List Document) (idfT : α) (posting : Posting)
    (d : String) (hnodup : (keys posting).Nodup) :
    amountsFor (additions documents idfT posting) d =
      match getOwn posting d with
      | none => []
      | some tf =>
        [termScore idfT tf ((getOwn (docLength documents) d).getD 0) (avgDocLen documents)] := by
  induction posting with
  | nil => rfl
  | cons p rest ih =>
    obtain ⟨d0, tf0⟩ := p
    simp only [keys, List.map_cons, List.nodup_cons] at hnodup
    by_cases hd : d0 = d
    · subst hd
      have hrest := amountsFor_additions_of_not_mem documents idfT rest d0 hnodup.1
      simp only [amountsFor, additions] at hrest
      simp [amountsFor, additions, getOwn, hrest]
    · have hrest := ih hnodup.2
      simp only [amountsFor, additions] at hrest
      simp [amountsFor, additions, getOwn, hd, hrest]

theorem termScore_eq_reference (idfT : α) (tf dl : Nat) (avgLen : α) :
    termScore idfT tf dl avgLen =
      idfT * ((tf : α) * (1.5 + 1)) / ((tf : α) + 1.5 * (1 - 0.75 + 0.75 * ((dl : α) / avgLen))) := by
  simp only [termScore, k1, b, mul_div_assoc]

theorem amountsFor_termAdditions (ln : α → α) (documents : List Document) (index : Index)
    (hwf : WellFormedIndex documents index) (t d : String) :
    amountsFor (termAdditions ln documents index t) d =
      (referenceContribution ln documents.length (avgDocLen documents) (docLength documents)
        index d t).toList := by
  unfold termAdditions referenceContribution
  cases hget : getOwn index t with
  | none => simp [amountsFor]
  | some posting =>
    have hp := hwf (t, posting) (getOwn_mem _ _ _ hget)
    simp only
    rw [amountsFor_additions documents _ posting d hp.1]
    cases htf : getOwn posting d with
    | none => simp
    | some tf =>
      have hmem : d ∈ keys posting := (getOwn_isSome_iff posting d).mp (by simp [htf])
      have hsome := (docLength_isSome_iff documents d).mpr (hp.2 d hmem)
      obtain ⟨dl, hdl⟩ := Option.isSome_iff_exists.mp hsome
      simp only [hdl, Option.getD_some, Option.toList_some, termScore_eq_reference, idf]

theorem amountsFor_flatMap (ln : α → α) (documents : List Document) (index : Index)
    (hwf : WellFormedIndex documents index) (q : List String) (d : String) :
    amountsFor (q.flatMap (termAdditions ln documents index)) d =
      q.filterMap (referenceContribution ln documents.length (avgDocLen documents)
        (docLength documents) index d) := by
  induction q with
  | nil => rfl
  | cons t rest ih =>
    rw [List.flatMap_cons, amountsFor_append, ih, amountsFor_termAdditions ln documents index hwf]
    cases hc : referenceContribution ln documents.length (avgDocLen documents)
        (docLength documents) index d t with
    | none => simp [List.filterMap_cons, hc]
    | some c => simp [List.filterMap_cons, hc]

theorem wellFormedIndex_within (documents : List Document) (index : Index)
    (hwf : WellFormedIndex documents index) : IndexWithinCorpus documents index :=
  fun p hp => (hwf p hp).2

theorem extend_none_isSome (amounts : List α) :
    (extend none amounts).isSome = true ↔ amounts ≠ [] := by
  cases amounts <;> simp [extend]

theorem extend_none_getD (amounts : List α) : (extend none amounts).getD 0 = amounts.sum := by
  cases amounts <;> simp [extend]

theorem referenceContribution_isSome (ln : α → α) (documents : List Document) (index : Index)
    (hwf : WellFormedIndex documents index) (d t : String) :
    (referenceContribution ln documents.length (avgDocLen documents) (docLength documents)
        index d t).isSome = true ↔
      ∃ posting, getOwn index t = some posting ∧ d ∈ keys posting := by
  unfold referenceContribution
  cases hget : getOwn index t with
  | none => simp
  | some posting =>
    have hp := hwf (t, posting) (getOwn_mem _ _ _ hget)
    simp only
    cases htf : getOwn posting d with
    | none =>
      have : d ∉ keys posting := (getOwn_eq_none_iff posting d).mp htf
      simp [this]
    | some tf =>
      have hmem : d ∈ keys posting := (getOwn_isSome_iff posting d).mp (by simp [htf])
      have hsome := (docLength_isSome_iff documents d).mpr (hp.2 d hmem)
      obtain ⟨dl, hdl⟩ := Option.isSome_iff_exists.mp hsome
      simp [hdl, hmem]

end BM25Reference

/-- C1 (code defect): a document whose only token is `constructor` occurs
once in the corpus, yet the index written by `buildIndex.js` has no entry for
it: `invertedIndex["constructor"]` reads as the inherited `Object` function,
so no posting is ever created for that term. -/
theorem buildIndex_misses_constructor :
    (constructorDocuments.map (fun d => (d.docId, d.tokens.count "constructor")) = [("doc_1", 1)]) ∧
      buildIndex constructorDocuments = [] ∧
      entry (buildIndex constructorDocuments) "constructor" "doc_1" = none := by
  decide

section C2

variable {α : Type} [LinearOrderedField α]

/-- C2: for a well-formed index over the corpus, the score object that
`bm25Score` returns has numbers as entries and is the reference map: the entry of `d` is the sum of
the reference summands over the query positions whose token is in the index
with `d` in its posting; it is present exactly when such a position exists
(tokens absent from the index add nothing and raise no error). -/
theorem bm25Score_eq_reference (ln : α → α) (documents : List Document) (index : Index)
    (q : List String) (hwf : WellFormedIndex documents index) :
    ∃ scores, bm25Score ln documents index q = numbers scores ∧
      (∀ d, getOwn scores d =
        referenceScore ln documents.length (avgDocLen documents) (docLength documents) index q d) ∧
      (∀ d, (getOwn scores d).isSome = true ↔
        ∃ t ∈ q, ∃ posting, getOwn index t = some posting ∧ d ∈ keys posting) := by
  refine ⟨_, bm25Score_eq ln documents index (wellFormedIndex_within _ _ hwf) q, ?_, ?_⟩
  · intro d
    rw [getOwn_applyAdditions, amountsFor_flatMap ln documents index hwf]
    rfl
  · intro d
    rw [getOwn_applyAdditions, amountsFor_flatMap ln documents index hwf]
    have h0 : getOwn ([] : JSObject α) d = none := rfl
    rw [h0, extend_none_isSome]
    constructor
    · intro hne
      obtain ⟨c, hc⟩ := List.exists_mem_of_ne_nil _ hne
      obtain ⟨t, ht, htc⟩ := List.mem_filterMap.mp hc
      exact ⟨t, ht, (referenceContribution_isSome ln documents index hwf d t).mp (by simp [htc])⟩
    · rintro ⟨t, ht, hex⟩
      have hsome := (referenceContribution_isSome ln documents index hwf d t).mpr hex
      obtain ⟨c, hc⟩ := Option.isSome_iff_exists.mp hsome
      exact List.ne_nil_of_mem (List.mem_filterMap.mpr ⟨t, ht, hc⟩)

end C2

/-- Witness for C2: the example corpus, its built index and a query with a
repeated term and an unknown term, over the reals with the natural logarithm. -/
theorem bm25Score_eq_reference_witness :
    WellFormedIndex exampleDocuments (buildIndex exampleDocuments) ∧
    ∃ scores, bm25Score Real.log exampleDocuments (buildIndex exampleDocuments)
        ["dog", "zebra", "dog"] = numbers scores ∧
      (∀ d, getOwn scores d =
        referenceScore Real.log exampleDocuments.length (avgDocLen exampleDocuments)
          (docLength exampleDocuments) (buildIndex exampleDocuments) ["dog", "zebra", "dog"] d) ∧
      (∀ d, (getOwn scores d).isSome = true ↔
        ∃ t ∈ ["dog", "zebra", "dog"], ∃ posting,
          getOwn (buildIndex exampleDocuments) t = some posting ∧ d ∈ keys posting) :=
  ⟨by decide, bm25Score_eq_reference Real.log exampleDocuments (buildIndex exampleDocuments)
    ["dog", "zebra", "dog"] (by decide)⟩

section C3

variable {α : Type} [LinearOrderedField α]

theorem extend_none_of_ne_nil (amounts : List α) (h : amounts ≠ []) :
    extend none amounts = some amounts.sum := by
  cases amounts with
  | nil => exact absurd rfl h
  | cons x xs => simp [extend]

theorem amountsFor_additions_ne_nil (documents : List Document) (idfT : α) (posting : Posting)
    (d : String) (h : d ∈ keys posting) :
    amountsFor (additions documents idfT posting) d ≠ [] := by
  obtain ⟨p, hp, hpd⟩ := List.mem_map.mp h
  have hmem : termScore idfT p.2 ((getOwn (docLength documents) p.1).getD 0)
      (avgDocLen documents) ∈ amountsFor (additions documents idfT posting) d := by
    simp only [amountsFor, additions, List.mem_map, List.mem_filter, decide_eq_true_eq]
    exact ⟨(p.1, _), ⟨⟨p, hp, rfl⟩, hpd⟩, rfl⟩
  exact List.ne_nil_of_mem hmem

theorem getD_bm25Score (ln : α → α) (documents : List Document) (index : Index)
    (q : List String) (d : String) :
    (getOwn (applyAdditions ([] : JSObject α) (q.flatMap (termAdditions ln documents index))) d).getD 0 =
      (amountsFor (q.flatMap (termAdditions ln documents index)) d).sum := by
  rw [getOwn_applyAdditions]
  exact extend_none_getD _


/-- C3: query tokens are weighted per occurrence.  For an index within the
corpus, the scores of a concatenated query are the sums of the scores of its
parts (an absent entry counting as 0); and for a term `t` of the index and a
docId `d` of its posting, the entry of `d` for the query `[t, t]` is twice
its entry for `[t]`. -/
theorem bm25Score_append (ln : α → α) (documents : List Document) (index : Index)
    (q1 q2 : List String) (hwf : IndexWithinCorpus documents index) :
    (∃ s s1 s2, bm25Score ln documents index (q1 ++ q2) = numbers s ∧
      bm25Score ln documents index q1 = numbers s1 ∧
      bm25Score ln documents index q2 = numbers s2 ∧
      ∀ d, (getOwn s d).getD 0 = (getOwn s1 d).getD 0 + (getOwn s2 d).getD 0) ∧
    (∀ t posting d, getOwn index t = some posting → d ∈ keys posting →
      ∃ st stt v, bm25Score ln documents index [t] = numbers st ∧
        bm25Score ln documents index [t, t] = numbers stt ∧
        getOwn st d = some v ∧ getOwn stt d = some (2 * v)) := by
  constructor
  · refine ⟨_, _, _, bm25Score_eq ln documents index hwf (q1 ++ q2),
      bm25Score_eq ln documents index hwf q1, bm25Score_eq ln documents index hwf q2, ?_⟩
    intro d
    rw [getD_bm25Score, getD_bm25Score, getD_bm25Score, List.flatMap_append, amountsFor_append,
      List.sum_append]
  · intro t posting d hget hd
    refine ⟨_, _, (amountsFor (termAdditions ln documents index t) d).sum,
      bm25Score_eq ln documents index hwf [t], bm25Score_eq ln documents index hwf [t, t], ?_, ?_⟩
    · rw [getOwn_applyAdditions]
      have hne : amountsFor (termAdditions ln documents index t) d ≠ [] := by
        simp only [termAdditions, hget]
        exact amountsFor_additions_ne_nil documents _ posting d hd
      simp only [List.flatMap_cons, List.flatMap_nil, List.append_nil]
      exact extend_none_of_ne_nil _ hne
    · rw [getOwn_applyAdditions]
      have hne : amountsFor (termAdditions ln documents index t) d ≠ [] := by
        simp only [termAdditions, hget]
        exact amountsFor_additions_ne_nil documents _ posting d hd
      simp only [List.flatMap_cons, List.flatMap_nil, List.append_nil, amountsFor_append]
      have hne2 : amountsFor (termAdditions ln documents index t) d ++
          amountsFor (termAdditions ln documents index t) d ≠ [] := by
        simp [hne]
      have h0 : getOwn ([] : JSObject α) d = none := rfl
      rw [h0, extend_none_of_ne_nil _ hne2, List.sum_append, two_mul]

end C3

/-- Witness for C3: the example corpus and its built index, over the reals. -/
theorem bm25Score_append_witness :
    IndexWithinCorpus exampleDocuments (buildIndex exampleDocuments) ∧
    (∃ s s1 s2, bm25Score Real.log exampleDocuments (buildIndex exampleDocuments)
        (["dog", "cat"] ++ ["dog"]) = numbers s ∧
      bm25Score Real.log exampleDocuments (buildIndex exampleDocuments) ["dog", "cat"] = numbers s1 ∧
      bm25Score Real.log exampleDocuments (buildIndex exampleDocuments) ["dog"] = numbers s2 ∧
      ∀ d, (getOwn s d).getD 0 = (getOwn s1 d).getD 0 + (getOwn s2 d).getD 0) :=
  ⟨by decide, (bm25Score_append Real.log exampleDocuments (buildIndex exampleDocuments)
    ["dog", "cat"] ["dog"] (by decide)).1⟩


/-! ## Query engine -/

theorem forEach_invariant {S B : Type} (body : S → B → Option S) (P : S → Prop)
    (hbody : ∀ s x s1, P s → body s x = some s1 → P s1) (s : S) (l : List B) (s1 : S)
    (hs : P s) (h : forEach body s l = some s1) : P s1 := by
  induction l generalizing s with
  | nil =>
    simp only [forEach, Option.some.injEq] at h
    exact h ▸ hs
  | cons x rest ih =>
    simp only [forEach] at h
    cases hb : body s x with
    | none => simp [hb] at h
    | some s2 =>
      rw [hb] at h
      exact ih s2 (hbody s x s2 hs hb) h

theorem getOwn_of_mem_nodup {V : Type} (o : JSObject V) (k : String) (v : V)
    (hnodup : (keys o).Nodup) (hmem : (k, v) ∈ o) : getOwn o k = some v := by
  induction o with
  | nil => simp at hmem
  | cons p rest ih =>
    obtain ⟨k0, v0⟩ := p
    simp only [keys, List.map_cons, List.nodup_cons] at hnodup
    rcases List.mem_cons.mp hmem with heq | hrest
    · injection heq with h1 h2
      subst h1 h2
      simp [getOwn]
    · have hne : k0 ≠ k := by
        intro hk
        apply hnodup.1
        rw [hk]
        exact List.mem_map.mpr ⟨(k, v), hrest, rfl⟩
      simp only [getOwn, hne, if_false]
      exact ih hnodup.2 hrest

theorem getOwn_foldl_setOwn {V B : Type} (l : List B) (k : B → String) (v : B → V)
    (o : JSObject V) (key : String) (val : V)
    (h : getOwn (l.foldl (fun m x => setOwn m (k x) (v x)) o) key = some val) :
    getOwn o key = some val ∨ ∃ x ∈ l, k x = key ∧ v x = val := by
  induction l generalizing o with
  | nil => exact Or.inl h
  | cons x rest ih =>
    rw [List.foldl_cons] at h
    rcases ih _ h with h1 | ⟨y, hy, hk, hv⟩
    · by_cases hk : k x = key
      · rw [← hk, getOwn_setOwn_self] at h1
        exact Or.inr ⟨x, List.mem_cons_self _ _, hk, Option.some.inj h1⟩
      · rw [getOwn_setOwn_ne _ _ _ _ hk] at h1
        exact Or.inl h1
    · exact Or.inr ⟨y, List.mem_cons_of_mem _ hy, hk, hv⟩

section SearchFacts

variable {α : Type} [LinearOrderedField α]

theorem nodup_keys_addScore (scores : JSObject (JSNumber α)) (docId : String)
    (score : JSNumber α) (h : (keys scores).Nodup) :
    (keys (addScore scores docId score)).Nodup := by
  unfold addScore
  apply nodup_keys_setOwn
  split
  · split
    · exact nodup_keys_setOwn _ _ _ h
    · exact h
  · exact nodup_keys_setOwn _ _ _ h

theorem nodup_keys_foldl_scoreEntry (documents : List Document) (idfT : α) (posting : Posting)
    (scores : JSObject (JSNumber α)) (h : (keys scores).Nodup) :
    (keys (posting.foldl (scoreEntry documents idfT) scores)).Nodup := by
  induction posting generalizing scores with
  | nil => exact h
  | cons p rest ih =>
    rw [List.foldl_cons]
    exact ih _ (nodup_keys_addScore _ _ _ h)

theorem nodup_keys_scoreTerm (ln : α → α) (documents : List Document) (index : Index)
    (scores : JSObject (JSNumber α)) (t : String) (h : (keys scores).Nodup) :
    (keys (scoreTerm ln documents index scores t)).Nodup := by
  unfold scoreTerm
  cases hget : getOwn index t with
  | none => exact h
  | some posting => exact nodup_keys_foldl_scoreEntry documents _ posting scores h

theorem nodup_keys_foldl_scoreTerm (ln : α → α) (documents : List Document) (index : Index)
    (q : List String) (scores : JSObject (JSNumber α)) (h : (keys scores).Nodup) :
    (keys (q.foldl (scoreTerm ln documents index) scores)).Nodup := by
  induction q generalizing scores with
  | nil => exact h
  | cons t rest ih =>
    rw [List.foldl_cons]
    exact ih _ (nodup_keys_scoreTerm ln documents index scores t h)

theorem nodup_keys_bm25Score (ln : α → α) (documents : List Document) (index : Index)
    (q : List String) (scores : JSObject α)
    (h : bm25Score ln documents index q = numbers scores) : (keys scores).Nodup := by
  have hall := nodup_keys_foldl_scoreTerm ln documents index q [] (by simp [keys])
  have hb : bm25Score ln documents index q = q.foldl (scoreTerm ln documents index) [] := rfl
  rw [← hb, h, keys_numbers] at hall
  exact hall

/-- What the artifact says about the authority value `a` of a docId: the score
of an entry with that docId, or 0 when there is no such entry. -/
theorem authority_spec (pageRanks : List (PageRankEntry α)) (docId : String) :
    (∃ e ∈ pageRanks, e.docId = docId ∧ authority pageRanks docId = e.score) ∨
      ((∀ e ∈ pageRanks, e.docId ≠ docId) ∧ authority pageRanks docId = 0) := by
  unfold authority
  cases hget : getOwn (pageRankMap pageRanks) docId with
  | none =>
    right
    refine ⟨?_, rfl⟩
    intro e he hd
    have hsome : (getOwn (pageRankMap pageRanks) docId).isSome = true := by
      unfold pageRankMap
      rw [getOwn_foldl_setOwn_isSome pageRanks PageRankEntry.docId PageRankEntry.score]
      exact Or.inr (List.mem_map.mpr ⟨e, he, hd⟩)
    simp [hget] at hsome
  | some score =>
    left
    unfold pageRankMap at hget
    rcases getOwn_foldl_setOwn pageRanks PageRankEntry.docId PageRankEntry.score [] docId score
      hget with h0 | ⟨e, he, hd, hs⟩
    · simp [getOwn] at h0
    · refine ⟨e, he, hd, ?_⟩
      by_cases hz : score = 0
      · simp [hz, hs.trans hz]
      · simp [hz, hs]

theorem forEach_pushResult (documents : List Document) (pageRanks : List (PageRankEntry α))
    (relevanceScores : JSObject (JSNumber α)) (results results1 : List (SearchResult α))
    (h : forEach (pushResult documents pageRanks) results relevanceScores = some results1) :
    ∃ scores added, relevanceScores = numbers scores ∧ results1 = results ++ added ∧
      List.Forall₂ (fun p r => ∃ doc, documents.find? (fun d => decide (d.docId = p.1)) = some doc ∧
        r = { docId := p.1, title := doc.title, url := doc.url,
              score := p.2 * 0.7 + authority pageRanks p.1 * 0.3 }) scores added := by
  induction relevanceScores generalizing results with
  | nil =>
    simp only [forEach, Option.some.injEq] at h
    exact ⟨[], [], rfl, by simp [h], List.Forall₂.nil⟩
  | cons p rest ih =>
    simp only [forEach] at h
    cases hb : pushResult documents pageRanks results p with
    | none => simp [hb] at h
    | some r2 =>
      rw [hb] at h
      unfold pushResult at hb
      cases hfind : documents.find? (fun d => decide (d.docId = p.1)) with
      | none => simp [hfind] at hb
      | some doc =>
        obtain ⟨docId, value⟩ := p
        cases value with
        | none => simp [hfind] at hb
        | some bm25 =>
          simp only [hfind, Option.some.injEq] at hb
          obtain ⟨scores, added, hnum, hadd, hall⟩ := ih _ h
          refine ⟨(docId, bm25) :: scores, _ :: added, ?_, ?_,
            List.Forall₂.cons ⟨doc, hfind, rfl⟩ hall⟩
          · simp [numbers, hnum]
          · rw [hadd, ← hb]
            simp

end SearchFacts


section SearchTotal

variable {α : Type} [LinearOrderedField α]

theorem forEach_pushResult_isSome (documents : List Document)
    (pageRanks : List (PageRankEntry α)) (scores : JSObject α) (results : List (SearchResult α))
    (h : ∀ d ∈ keys scores, d ∈ documents.map Document.docId) :
    ∃ results1,
      forEach (pushResult documents pageRanks) results (numbers scores) = some results1 := by
  induction scores generalizing results with
  | nil => exact ⟨results, rfl⟩
  | cons p rest ih =>
    have hp : p.1 ∈ documents.map Document.docId := h p.1 (by simp [keys])
    obtain ⟨doc, hdoc, hid⟩ := List.mem_map.mp hp
    have hsome : (documents.find? (fun d => decide (d.docId = p.1))).isSome = true := by
      rw [List.find?_isSome]
      exact ⟨doc, hdoc, by simp [hid]⟩
    obtain ⟨doc1, hfind⟩ := Option.isSome_iff_exists.mp hsome
    have hrest : ∀ d ∈ keys rest, d ∈ documents.map Document.docId :=
      fun d hd => h d (by simp only [keys, List.map_cons, List.mem_cons]; exact Or.inr hd)
    simp only [numbers, List.map_cons, forEach, pushResult, hfind]
    exact ih _ hrest

theorem keys_applyAdditions_subset (adds : List (String × α)) (d : String)
    (h : d ∈ keys (applyAdditions ([] : JSObject α) adds)) : d ∈ adds.map Prod.fst := by
  have hsome := (getOwn_isSome_iff _ d).mpr h
  rw [getOwn_applyAdditions] at hsome
  have h0 : getOwn ([] : JSObject α) d = none := rfl
  rw [h0, extend_none_isSome] at hsome
  obtain ⟨c, hc⟩ := List.exists_mem_of_ne_nil _ hsome
  simp only [amountsFor, List.mem_map, List.mem_filter, decide_eq_true_eq] at hc
  obtain ⟨p, ⟨hp, hpd⟩, _⟩ := hc
  exact List.mem_map.mpr ⟨p, hp, hpd⟩

theorem termAdditions_within (ln : α → α) (documents : List Document) (index : Index)
    (hwf : IndexWithinCorpus documents index) (t : String) (p : String × α)
    (hp : p ∈ termAdditions ln documents index t) : p.1 ∈ documents.map Document.docId := by
  unfold termAdditions at hp
  cases hget : getOwn index t with
  | none => simp [hget] at hp
  | some posting =>
    simp only [hget, additions, List.mem_map] at hp
    obtain ⟨e, he, hep⟩ := hp
    have hk : e.1 ∈ keys posting := List.mem_map.mpr ⟨e, he, rfl⟩
    rw [← hep]
    exact hwf (t, posting) (getOwn_mem _ _ _ hget) e.1 hk

theorem search_of_scored (ln : α → α) (documents : List Document) (index : Index)
    (pageRanks : List (PageRankEntry α)) (query : String)
    (hq : ∀ t ∈ tokenize query, ∀ posting, getOwn index t = some posting →
      ∀ d ∈ keys posting, d ∈ documents.map Document.docId) :
    ∃ results, search ln documents index pageRanks query = some results := by
  unfold search searchResults
  rw [bm25Score_of_scored ln documents index (tokenize query) hq]
  simp only
  have hkeys : ∀ d ∈ keys (applyAdditions ([] : JSObject α)
      ((tokenize query).flatMap (termAdditions ln documents index))),
      d ∈ documents.map Document.docId := by
    intro d hd
    obtain ⟨p, hp, hpd⟩ := List.mem_map.mp (keys_applyAdditions_subset _ d hd)
    obtain ⟨t, ht, hpt⟩ := List.mem_flatMap.mp hp
    unfold termAdditions at hpt
    cases hget : getOwn index t with
    | none => simp [hget] at hpt
    | some posting =>
      simp only [hget, additions, List.mem_map] at hpt
      obtain ⟨e, he, hep⟩ := hpt
      rw [← hpd, ← hep]
      exact hq t ht posting hget e.1 (List.mem_map.mpr ⟨e, he, rfl⟩)
  obtain ⟨r1, hr1⟩ := forEach_pushResult_isSome documents pageRanks _ [] hkeys
  rw [hr1]
  exact ⟨_, rfl⟩

/-- When every docId of the index is a corpus docId, `search` returns. -/
theorem search_isSome (ln : α → α) (documents : List Document) (index : Index)
    (pageRanks : List (PageRankEntry α)) (query : String)
    (hwf : IndexWithinCorpus documents index) :
    ∃ results, search ln documents index pageRanks query = some results :=
  search_of_scored ln documents index pageRanks query
    (fun t _ posting hget => hwf (t, posting) (getOwn_mem _ _ _ hget))

theorem search_unfold (ln : α → α) (documents : List Document) (index : Index)
    (pageRanks : List (PageRankEntry α)) (query : String) (results : List (SearchResult α))
    (h : search ln documents index pageRanks query = some results) :
    ∃ scores matched, bm25Score ln documents index (tokenize query) = numbers scores ∧
      searchResults ln documents index pageRanks query = some matched ∧
      results = (matched.insertionSort byScore).take 10 ∧
      List.Forall₂ (fun p r => ∃ doc, documents.find? (fun d => decide (d.docId = p.1)) = some doc ∧
        r = { docId := p.1, title := doc.title, url := doc.url,
              score := p.2 * 0.7 + authority pageRanks p.1 * 0.3 }) scores matched := by
  unfold search at h
  cases hm : searchResults ln documents index pageRanks query with
  | none => simp [hm] at h
  | some matched =>
    simp only [hm, Option.some.injEq] at h
    have hm2 := hm
    unfold searchResults at hm2
    obtain ⟨scores, added, hnum, hadd, hall⟩ :=
      forEach_pushResult documents pageRanks _ [] matched hm2
    simp only [List.nil_append] at hadd
    exact ⟨scores, matched, hnum, rfl, h.symm, hadd ▸ hall⟩

end SearchTotal


section C4

variable {α : Type} [LinearOrderedField α]

/-- C4: every result `r` that `search` returns has the score
`0.7 * bm25 + 0.3 * a`, where `bm25` is the entry of `r.docId` in
`bm25Score(tokenize(query))` and `a` is the score of an entry of the authority
artifact with that docId, or 0 when the artifact has no such entry; its title
and url are those of the corpus document found for that docId. -/
theorem search_score_fusion (ln : α → α) (documents : List Document) (index : Index)
    (pageRanks : List (PageRankEntry α)) (query : String) (results : List (SearchResult α))
    (h : search ln documents index pageRanks query = some results) :
    ∃ scores, bm25Score ln documents index (tokenize query) = numbers scores ∧
      ∀ r ∈ results, ∃ bm25 a doc,
        getOwn scores r.docId = some bm25 ∧
        r.score = 0.7 * bm25 + 0.3 * a ∧
        ((∃ e ∈ pageRanks, e.docId = r.docId ∧ a = e.score) ∨
          ((∀ e ∈ pageRanks, e.docId ≠ r.docId) ∧ a = 0)) ∧
        documents.find? (fun d => decide (d.docId = r.docId)) = some doc ∧
        r.title = doc.title ∧ r.url = doc.url := by
  obtain ⟨scores, matched, hs, _, hres, hall⟩ :=
    search_unfold ln documents index pageRanks query results h
  refine ⟨scores, hs, ?_⟩
  intro r hr
  have hnodup := nodup_keys_bm25Score ln documents index (tokenize query) scores hs
  have hr1 : r ∈ matched.insertionSort byScore := by
    rw [hres] at hr
    exact List.mem_of_mem_take hr
  have hr2 : r ∈ matched := (List.perm_insertionSort byScore matched).subset hr1
  obtain ⟨i, hi, hget⟩ := List.getElem_of_mem hr2
  have hlen := hall.length_eq
  have hi2 : i < scores.length := hlen ▸ hi
  have hrel := List.Forall₂.get hall hi2 hi
  simp only [List.get_eq_getElem, hget] at hrel
  obtain ⟨doc, hfind, hrdef⟩ := hrel
  have hmem : (scores[i].1, scores[i].2) ∈ scores := List.getElem_mem hi2
  have hown := getOwn_of_mem_nodup scores _ _ hnodup hmem
  refine ⟨scores[i].2, authority pageRanks scores[i].1, doc, ?_, ?_, ?_, ?_, ?_, ?_⟩
  · rw [hrdef]; exact hown
  · rw [hrdef]; simp only; ring
  · rw [hrdef]; exact authority_spec pageRanks scores[i].1
  · rw [hrdef]; exact hfind
  · rw [hrdef]
  · rw [hrdef]

end C4

/-- Witness for C4: the query "dog" on the example corpus with its built
index, over the reals. -/
theorem search_score_fusion_witness :
    ∃ results, search Real.log exampleDocuments (buildIndex exampleDocuments)
        examplePageRanks "dog" = some results ∧
      ∃ scores, bm25Score Real.log exampleDocuments (buildIndex exampleDocuments)
          (tokenize "dog") = numbers scores ∧
        ∀ r ∈ results, ∃ bm25 a doc,
          getOwn scores r.docId = some bm25 ∧
          r.score = 0.7 * bm25 + 0.3 * a ∧
          ((∃ e ∈ (examplePageRanks : List (PageRankEntry ℝ)), e.docId = r.docId ∧ a = e.score) ∨
            ((∀ e ∈ (examplePageRanks : List (PageRankEntry ℝ)), e.docId ≠ r.docId) ∧ a = 0)) ∧
          exampleDocuments.find? (fun d => decide (d.docId = r.docId)) = some doc ∧
          r.title = doc.title ∧ r.url = doc.url := by
  obtain ⟨results, h⟩ := search_isSome Real.log exampleDocuments (buildIndex exampleDocuments)
    examplePageRanks "dog" (by decide)
  exact ⟨results, h, search_score_fusion Real.log exampleDocuments
    (buildIndex exampleDocuments) examplePageRanks "dog" results h⟩


section C5

variable {α : Type} [LinearOrderedField α]

theorem byScore_iff (a b : SearchResult α) : byScore a b ↔ b.score ≤ a.score := by
  unfold byScore
  exact sub_nonpos

theorem byScore_total : IsTotal (SearchResult α) byScore :=
  ⟨fun a b => by
    rw [byScore_iff, byScore_iff]
    exact le_total b.score a.score⟩

theorem byScore_trans : IsTrans (SearchResult α) byScore :=
  ⟨fun a b c hab hbc => by
    rw [byScore_iff] at hab hbc ⊢
    exact le_trans hbc hab⟩

theorem forall₂_map_docId (documents : List Document) (pageRanks : List (PageRankEntry α))
    (scores : JSObject α) (matched : List (SearchResult α))
    (hall : List.Forall₂ (fun p r => ∃ doc,
        documents.find? (fun d => decide (d.docId = p.1)) = some doc ∧
        r = { docId := p.1, title := doc.title, url := doc.url,
              score := p.2 * 0.7 + authority pageRanks p.1 * 0.3 }) scores matched) :
    matched.map SearchResult.docId = keys scores := by
  induction hall with
  | nil => rfl
  | cons hhead _ ih =>
    obtain ⟨doc, _, hr⟩ := hhead
    simp only [List.map_cons, keys] at ih ⊢
    rw [ih, hr]

/-- C5: the list `search` returns is the first ten entries of the matched
list sorted by final score; it is ordered by score non-increasing, has length
`min 10 m` for `m` the number of docIds with a BM25 entry, names each docId at
most once, and every matched result that is not returned has a score at most
the score of every returned result. -/
theorem search_top_ten (ln : α → α) (documents : List Document) (index : Index)
    (pageRanks : List (PageRankEntry α)) (query : String) (results : List (SearchResult α))
    (h : search ln documents index pageRanks query = some results) :
    ∃ scores matched, bm25Score ln documents index (tokenize query) = numbers scores ∧
      searchResults ln documents index pageRanks query = some matched ∧
      matched.map SearchResult.docId = keys scores ∧
      results = (matched.insertionSort byScore).take 10 ∧
      results.Pairwise (fun a c => c.score ≤ a.score) ∧
      results.length = min 10 (keys scores).length ∧
      (results.map SearchResult.docId).Nodup ∧
      ∀ x ∈ matched, x ∉ results → ∀ r ∈ results, x.score ≤ r.score := by
  obtain ⟨scores, matched, hs, hm, hres, hall⟩ :=
    search_unfold ln documents index pageRanks query results h
  have hids := forall₂_map_docId documents pageRanks scores matched hall
  have hnodup := nodup_keys_bm25Score ln documents index (tokenize query) scores hs
  haveI := @byScore_total α _
  haveI := @byScore_trans α _
  have hsorted : (matched.insertionSort byScore).Pairwise byScore :=
    List.sorted_insertionSort byScore matched
  have hperm := List.perm_insertionSort byScore matched
  refine ⟨scores, matched, hs, hm, hids, hres, ?_, ?_, ?_, ?_⟩
  · rw [hres]
    exact ((hsorted.sublist (List.take_sublist 10 _)).imp
      (fun {a c} hac => (byScore_iff a c).mp hac))
  · rw [hres, List.length_take, hperm.length_eq, ← hids, List.length_map]
  · rw [hres]
    have h1 : ((matched.insertionSort byScore).map SearchResult.docId).Nodup :=
      ((hperm.map SearchResult.docId).nodup_iff).mpr (hids ▸ hnodup)
    exact h1.sublist ((List.take_sublist 10 _).map SearchResult.docId)
  · intro x hx hxn r hr
    rw [hres] at hxn hr
    have hx1 : x ∈ matched.insertionSort byScore := hperm.symm.subset hx
    rw [← List.take_append_drop 10 (matched.insertionSort byScore)] at hx1 hsorted
    have hx2 : x ∈ (matched.insertionSort byScore).drop 10 := by
      rcases List.mem_append.mp hx1 with h1 | h1
      · exact absurd h1 hxn
      · exact h1
    exact (byScore_iff r x).mp ((List.pairwise_append.mp hsorted).2.2 r hr x hx2)

end C5

/-- Witness for C5: the query "dog cat" on the example corpus with its built
index, over the reals. -/
theorem search_top_ten_witness :
    ∃ results, search Real.log exampleDocuments (buildIndex exampleDocuments)
        examplePageRanks "dog cat" = some results ∧
      ∃ scores matched, bm25Score Real.log exampleDocuments (buildIndex exampleDocuments)
          (tokenize "dog cat") = numbers scores ∧
        searchResults Real.log exampleDocuments (buildIndex exampleDocuments)
          examplePageRanks "dog cat" = some matched ∧
        matched.map SearchResult.docId = keys scores ∧
        results = (matched.insertionSort byScore).take 10 ∧
        results.Pairwise (fun a c => c.score ≤ a.score) ∧
        results.length = min 10 (keys scores).length ∧
        (results.map SearchResult.docId).Nodup ∧
        ∀ x ∈ matched, x ∉ results → ∀ r ∈ results, x.score ≤ r.score := by
  obtain ⟨results, h⟩ := search_isSome Real.log exampleDocuments (buildIndex exampleDocuments)
    examplePageRanks "dog cat" (by decide)
  exact ⟨results, h, search_top_ten Real.log exampleDocuments
    (buildIndex exampleDocuments) examplePageRanks "dog cat" results h⟩

section C6

variable {α : Type} [LinearOrderedField α]

/-- C6: a query that tokenizes to the empty sequence makes `search` return
the empty list, whatever the corpus, the index and the authority artifact. -/
theorem search_empty_query (ln : α → α) (documents : List Document) (index : Index)
    (pageRanks : List (PageRankEntry α)) (query : String) (h : tokenize query = []) :
    search ln documents index pageRanks query = some [] := by
  simp [search, searchResults, bm25Score, h, forEach]

end C6

/-- Witness for C6: the empty string, a string of stopwords and a string of
digits and punctuation tokenize to the empty sequence, and `search` returns
the empty list for them on the example corpus. -/
theorem search_empty_query_witness :
    (tokenize "" = [] ∧ tokenize "the of a" = [] ∧ tokenize "!!! 42" = []) ∧
    search Real.log exampleDocuments (buildIndex exampleDocuments) examplePageRanks "" = some [] ∧
    search Real.log exampleDocuments (buildIndex exampleDocuments) examplePageRanks
      "the of a" = some [] ∧
    search Real.log exampleDocuments (buildIndex exampleDocuments) examplePageRanks
      "!!! 42" = some [] :=
  ⟨by decide,
   search_empty_query Real.log exampleDocuments (buildIndex exampleDocuments) examplePageRanks
     "" (by decide),
   search_empty_query Real.log exampleDocuments (buildIndex exampleDocuments) examplePageRanks
     "the of a" (by decide),
   search_empty_query Real.log exampleDocuments (buildIndex exampleDocuments) examplePageRanks
     "!!! 42" (by decide)⟩


/-! ## Link authority -/

theorem setOwn_of_not_mem {V : Type} (o : JSObject V) (k : String) (x : V) (h : k ∉ keys o) :
    setOwn o k x = o ++ [(k, x)] := by
  induction o with
  | nil => rfl
  | cons p rest ih =>
    obtain ⟨k0, v0⟩ := p
    simp only [keys, List.map_cons, List.mem_cons, not_or] at h
    have hne : ¬ k0 = k := fun hk => h.1 hk.symm
    simp only [setOwn, hne, if_false, List.cons_append]
    rw [ih h.2]

theorem getOwn_foldl_const {V : Type} (l : List String) (c : V) (o : JSObject V) (u : String) :
    getOwn (l.foldl (fun m url => setOwn m url c) o) u =
      if u ∈ l then some c else getOwn o u := by
  induction l generalizing o with
  | nil => simp
  | cons x rest ih =>
    rw [List.foldl_cons, ih]
    by_cases hrest : u ∈ rest
    · simp [hrest]
    · by_cases hx : x = u
      · subst hx
        simp [hrest, getOwn_setOwn_self]
      · have hx2 : ¬ u = x := fun h => hx h.symm
        simp [hrest, hx2, getOwn_setOwn_ne _ _ _ _ hx]

theorem mem_pages_of_mem (rawPages : List RawPage) (p : RawPage) (hp : p ∈ rawPages) :
    p.url ∈ pages rawPages :=
  List.mem_map.mpr ⟨p, hp, rfl⟩

theorem getOwn_linksMap_isSome (rawPages : List RawPage) (u : String)
    (hu : u ∈ pages rawPages) :
    ∃ p ∈ rawPages, p.url = u ∧
      getOwn (linksMap rawPages) u =
        some (p.link.filter (fun l => decide (l ∈ pages rawPages))) := by
  have hsome : (getOwn (linksMap rawPages) u).isSome = true := by
    unfold linksMap
    rw [getOwn_foldl_setOwn_isSome rawPages RawPage.url
      (fun p => p.link.filter (fun l => decide (l ∈ pages rawPages)))]
    exact Or.inr hu
  obtain ⟨out, hout⟩ := Option.isSome_iff_exists.mp hsome
  have hout2 := hout
  unfold linksMap at hout2
  rcases getOwn_foldl_setOwn rawPages RawPage.url
    (fun p => p.link.filter (fun l => decide (l ∈ pages rawPages))) [] u out hout2 with h0 | h1
  · simp [getOwn] at h0
  · obtain ⟨p, hp, hpu, hpv⟩ := h1
    exact ⟨p, hp, hpu, by rw [hout, ← hpv]⟩

theorem getOwn_linksMap_of_nodup (rawPages : List RawPage) (hnodup : (pages rawPages).Nodup)
    (p : RawPage) (hp : p ∈ rawPages) :
    getOwn (linksMap rawPages) p.url =
      some (p.link.filter (fun l => decide (l ∈ pages rawPages))) := by
  obtain ⟨p1, hp1, hurl, hget⟩ := getOwn_linksMap_isSome rawPages p.url
    (mem_pages_of_mem rawPages p hp)
  have heq : p1 = p := List.inj_on_of_nodup_map hnodup hp1 hp hurl
  rw [hget, heq]

theorem mem_pages_of_mem_outgoing (rawPages : List RawPage) (u dest : String)
    (outgoing : List String) (h : getOwn (linksMap rawPages) u = some outgoing)
    (hd : dest ∈ outgoing) : dest ∈ pages rawPages := by
  unfold linksMap at h
  rcases getOwn_foldl_setOwn rawPages RawPage.url
    (fun p => p.link.filter (fun l => decide (l ∈ pages rawPages))) [] u outgoing h with h0 | h1
  · simp [getOwn] at h0
  · obtain ⟨p, _, _, hpv⟩ := h1
    rw [← hpv] at hd
    simpa using (List.mem_filter.mp hd).2


section PageRankFacts

variable {α : Type} [LinearOrderedField α]

theorem damping_nonneg : (0 : α) ≤ damping := by
  unfold damping
  norm_num

theorem damping_lt_one : (damping : α) < 1 := by
  unfold damping
  norm_num

theorem rankOf_setOwn (m : JSObject α) (k u : String) (y : α) :
    rankOf (setOwn m k y) u = if k = u then y else rankOf m u := by
  unfold rankOf
  by_cases h : k = u
  · subst h
    simp [getOwn_setOwn_self]
  · simp [h, getOwn_setOwn_ne _ _ _ _ h]

theorem massOf_setOwn (l : List String) (m : JSObject α) (k : String) (r x : α)
    (hnodup : l.Nodup) (hget : getOwn m k = some r) :
    massOf l (setOwn m k (r + x)) = massOf l m + if k ∈ l then x else 0 := by
  induction l with
  | nil => simp [massOf]
  | cons u rest ih =>
    simp only [List.nodup_cons] at hnodup
    have hrest := ih hnodup.2
    simp only [massOf, List.map_cons, List.sum_cons] at hrest ⊢
    rw [hrest, rankOf_setOwn]
    by_cases hk : k = u
    · subst hk
      have hr : rankOf m k = r := by simp [rankOf, hget]
      simp only [if_true, List.mem_cons, true_or, hnodup.1, if_false, hr]
      ring
    · have hk2 : ¬ u = k := fun h => hk h.symm
      simp only [hk, if_false, List.mem_cons, false_or]
      ring

theorem ranksAtLeast_setOwn (urls : List String) (c : α) (m : JSObject α) (k : String) (y : α)
    (hm : RanksAtLeast urls c m) (hy : c ≤ y) : RanksAtLeast urls c (setOwn m k y) := by
  intro u hu
  by_cases hk : k = u
  · subst hk
    exact ⟨y, getOwn_setOwn_self _ _ _, hy⟩
  · rw [getOwn_setOwn_ne _ _ _ _ hk]
    exact hm u hu

theorem forEach_addShare (urls : List String) (c share : α) (hshare : 0 ≤ share)
    (outgoing : List String) (hall : ∀ dest ∈ outgoing, dest ∈ urls) (m : JSObject α)
    (hm : RanksAtLeast urls c m) :
    ∃ m1, forEach (addShare share) m outgoing = some m1 ∧ RanksAtLeast urls c m1 ∧
      (urls.Nodup → massOf urls m1 = massOf urls m + (outgoing.length : α) * (damping * share)) := by
  induction outgoing generalizing m with
  | nil => exact ⟨m, rfl, hm, fun _ => by simp⟩
  | cons dest rest ih =>
    have hdest : dest ∈ urls := hall dest (List.mem_cons_self _ _)
    obtain ⟨r, hr, hcr⟩ := hm dest hdest
    have hstep : RanksAtLeast urls c (setOwn m dest (r + damping * share)) := by
      apply ranksAtLeast_setOwn urls c m dest _ hm
      have : (0 : α) ≤ damping * share := mul_nonneg damping_nonneg hshare
      linarith
    obtain ⟨m1, hm1, hinv, hmass⟩ := ih (fun d hd => hall d (List.mem_cons_of_mem _ hd)) _ hstep
    refine ⟨m1, ?_, hinv, ?_⟩
    · simp only [forEach, addShare, hr]
      exact hm1
    · intro hnodup
      rw [hmass hnodup, massOf_setOwn urls m dest r _ hnodup hr]
      simp only [hdest, if_true, List.length_cons, Nat.cast_add, Nat.cast_one]
      ring

theorem distribute_spec (rawPages : List RawPage) (c : α) (ranks m : JSObject α) (url : String)
    (hurl : url ∈ pages rawPages) (hranks : RanksAtLeast (pages rawPages) 0 ranks)
    (hm : RanksAtLeast (pages rawPages) c m) :
    ∃ m1, distribute rawPages ranks m url = some m1 ∧ RanksAtLeast (pages rawPages) c m1 ∧
      ((pages rawPages).Nodup →
        massOf (pages rawPages) m1 =
          massOf (pages rawPages) m + damping * linkedRank rawPages ranks url) := by
  obtain ⟨p, _, _, hlinks⟩ := getOwn_linksMap_isSome rawPages url hurl
  obtain ⟨r, hr, hr0⟩ := hranks url hurl
  unfold distribute linkedRank
  rw [hlinks]
  cases hout : p.link.filter (fun l => decide (l ∈ pages rawPages)) with
  | nil => exact ⟨m, by simp, hm, fun _ => by simp⟩
  | cons dest rest =>
    have hall : ∀ d ∈ dest :: rest, d ∈ pages rawPages := by
      intro d hd
      exact mem_pages_of_mem_outgoing rawPages url d _ (hout ▸ hlinks) hd
    have hlen : (0 : α) < (((dest :: rest).length : Nat) : α) := by
      simp only [List.length_cons, Nat.cast_add, Nat.cast_one]
      positivity
    have hshare : (0 : α) ≤ r / (((dest :: rest).length : Nat) : α) :=
      div_nonneg hr0 (le_of_lt hlen)
    obtain ⟨m1, hm1, hinv, hmass⟩ :=
      forEach_addShare (pages rawPages) c _ hshare (dest :: rest) hall m hm
    refine ⟨m1, ?_, hinv, ?_⟩
    · simp only [hr, List.length_cons, Nat.succ_ne_zero, if_false]
      simpa using hm1
    · intro hnodup
      rw [hmass hnodup]
      have hrank : rankOf ranks url = r := by simp [rankOf, hr]
      simp only [hrank]
      field_simp

theorem forEach_distribute (rawPages : List RawPage) (c : α) (ranks : JSObject α)
    (hranks : RanksAtLeast (pages rawPages) 0 ranks) (l : List String)
    (hl : ∀ u ∈ l, u ∈ pages rawPages) (m : JSObject α)
    (hm : RanksAtLeast (pages rawPages) c m) :
    ∃ m1, forEach (distribute rawPages ranks) m l = some m1 ∧
      RanksAtLeast (pages rawPages) c m1 ∧
      ((pages rawPages).Nodup →
        massOf (pages rawPages) m1 =
          massOf (pages rawPages) m + damping * (l.map (linkedRank rawPages ranks)).sum) := by
  induction l generalizing m with
  | nil => exact ⟨m, rfl, hm, fun _ => by simp⟩
  | cons u rest ih =>
    obtain ⟨m1, hm1, hinv1, hmass1⟩ :=
      distribute_spec rawPages c ranks m u (hl u (List.mem_cons_self _ _)) hranks hm
    obtain ⟨m2, hm2, hinv2, hmass2⟩ := ih (fun v hv => hl v (List.mem_cons_of_mem _ hv)) m1 hinv1
    refine ⟨m2, ?_, hinv2, ?_⟩
    · simp only [forEach, hm1]
      exact hm2
    · intro hnodup
      rw [hmass2 hnodup, hmass1 hnodup, List.map_cons, List.sum_cons]
      ring

end PageRankFacts


section PageRankRuns

variable {α : Type} [LinearOrderedField α]

theorem ranksAtLeast_const (urls : List String) (c : α) :
    RanksAtLeast urls c (urls.foldl (fun m url => setOwn m url c) []) := by
  intro u hu
  refine ⟨c, ?_, le_refl c⟩
  rw [getOwn_foldl_const]
  simp [hu]

theorem massOf_const (urls : List String) (c : α) :
    massOf urls (urls.foldl (fun m url => setOwn m url c) []) = (urls.length : α) * c := by
  have h : ∀ u ∈ urls, rankOf (urls.foldl (fun m url => setOwn m url c) []) u = c := by
    intro u hu
    unfold rankOf
    rw [getOwn_foldl_const]
    simp [hu]
  unfold massOf
  rw [List.map_congr_left h]
  simp

theorem ranksAtLeast_mono (urls : List String) (c c1 : α) (m : JSObject α) (hc : c1 ≤ c)
    (hm : RanksAtLeast urls c m) : RanksAtLeast urls c1 m := by
  intro u hu
  obtain ⟨v, hv, hcv⟩ := hm u hu
  exact ⟨v, hv, le_trans hc hcv⟩

theorem base_nonneg (n : Nat) : (0 : α) ≤ (1 - damping) / (n : α) := by
  apply div_nonneg
  · have := damping_lt_one (α := α)
    linarith
  · exact Nat.cast_nonneg n

theorem massOf_initialRanks (rawPages : List RawPage) (hN : 1 ≤ (pages rawPages).length) :
    massOf (pages rawPages) (initialRanks rawPages : JSObject α) = 1 := by
  unfold initialRanks
  rw [massOf_const]
  have : ((pages rawPages).length : α) ≠ 0 := by
    have : 0 < (pages rawPages).length := hN
    positivity
  field_simp

theorem massOf_baseRanks (rawPages : List RawPage) (hN : 1 ≤ (pages rawPages).length) :
    massOf (pages rawPages) (baseRanks rawPages : JSObject α) = 1 - damping := by
  unfold baseRanks
  rw [massOf_const]
  have : ((pages rawPages).length : α) ≠ 0 := by
    have : 0 < (pages rawPages).length := hN
    positivity
  field_simp

/-- One pass on ranks that are defined and non-negative: it returns, the new
ranks are at least `(1 - damping) / N`, and for pairwise distinct URLs their
sum is `(1 - damping) + damping * linkedMass`. -/
theorem iterate_spec (rawPages : List RawPage) (ranks : JSObject α)
    (hranks : RanksAtLeast (pages rawPages) 0 ranks) :
    ∃ ranks1, iterate rawPages ranks = some ranks1 ∧
      RanksAtLeast (pages rawPages) ((1 - damping) / ((pages rawPages).length : α)) ranks1 ∧
      ((pages rawPages).Nodup → 1 ≤ (pages rawPages).length →
        massOf (pages rawPages) ranks1 = (1 - damping) + damping * linkedMass rawPages ranks) := by
  obtain ⟨m1, hm1, hinv, hmass⟩ := forEach_distribute rawPages
    ((1 - damping) / ((pages rawPages).length : α)) ranks hranks (pages rawPages)
    (fun u hu => hu) (baseRanks rawPages) (ranksAtLeast_const (pages rawPages) _)
  refine ⟨m1, hm1, hinv, ?_⟩
  intro hnodup hN
  rw [hmass hnodup, massOf_baseRanks rawPages hN]
  rfl

theorem ranksAfter_spec (rawPages : List RawPage) (k : Nat) :
    ∃ ranks : JSObject α, ranksAfter rawPages k = some ranks ∧
      RanksAtLeast (pages rawPages) 0 ranks ∧
      (1 ≤ k → RanksAtLeast (pages rawPages)
        ((1 - damping) / ((pages rawPages).length : α)) ranks) := by
  induction k with
  | zero =>
    refine ⟨initialRanks rawPages, rfl, ?_, fun h => absurd h (by decide)⟩
    apply ranksAtLeast_mono _ (1 / ((pages rawPages).length : α)) 0 _ (by positivity)
    exact ranksAtLeast_const (pages rawPages) _
  | succ k ih =>
    obtain ⟨ranks, hr, h0, _⟩ := ih
    obtain ⟨ranks1, hr1, hinv, _⟩ := iterate_spec rawPages ranks h0
    refine ⟨ranks1, ?_, ?_, fun _ => hinv⟩
    · simp only [ranksAfter, hr]
      exact hr1
    · exact ranksAtLeast_mono _ _ 0 _ (base_nonneg _) hinv

theorem readRanks_spec (urls : List String) (m : JSObject α) (c : α) (l : List String)
    (hl : ∀ u ∈ l, u ∈ urls) (hm : RanksAtLeast urls c m) :
    ∃ scores, readRanks m l = some scores ∧ scores = l.map (rankOf m) ∧
      ∀ s ∈ scores, c ≤ s := by
  induction l with
  | nil => exact ⟨[], rfl, rfl, by simp⟩
  | cons u rest ih =>
    obtain ⟨v, hv, hcv⟩ := hm u (hl u (List.mem_cons_self _ _))
    obtain ⟨scores, hs, hmap, hall⟩ := ih (fun w hw => hl w (List.mem_cons_of_mem _ hw))
    refine ⟨v :: scores, ?_, ?_, ?_⟩
    · simp only [readRanks, hv, hs]
    · simp [hmap, rankOf, hv]
    · intro s hs1
      rcases List.mem_cons.mp hs1 with h1 | h1
      · exact h1 ▸ hcv
      · exact hall s h1

end PageRankRuns

section C7

variable {α : Type} [LinearOrderedField α]

/-- C7: for every list of raw pages and every number `k` of passes the loop
of `pagerank.js` returns, every page has a rank and that rank is
non-negative; after at least one pass it is at least `(1 - damping) / N`.
The same holds for the scores `ranks[url]` written to the artifact. -/
theorem ranks_nonneg (rawPages : List RawPage) (k : Nat) :
    ∃ (ranks : JSObject α) (scores : List α),
      ranksAfter rawPages k = some ranks ∧ scoresAfter rawPages k = some scores ∧
      scores.length = rawPages.length ∧
      (∀ u ∈ pages rawPages, ∃ v, getOwn ranks u = some v ∧ 0 ≤ v ∧
        (1 ≤ k → (1 - damping) / ((pages rawPages).length : α) ≤ v)) ∧
      (∀ s ∈ scores, 0 ≤ s ∧ (1 ≤ k → (1 - damping) / ((pages rawPages).length : α) ≤ s)) := by
  obtain ⟨ranks, hr, h0, h1⟩ := ranksAfter_spec (α := α) rawPages k
  obtain ⟨scores, hs, hmap, hall⟩ :=
    readRanks_spec (pages rawPages) ranks 0 (pages rawPages) (fun u hu => hu) h0
  refine ⟨ranks, scores, hr, ?_, ?_, ?_, ?_⟩
  · simp only [scoresAfter, hr]
    exact hs
  · rw [hmap]
    simp [pages]
  · intro u hu
    obtain ⟨v, hv, hv0⟩ := h0 u hu
    refine ⟨v, hv, hv0, fun hk => ?_⟩
    obtain ⟨v1, hv1, hc⟩ := h1 hk u hu
    rw [hv] at hv1
    exact (Option.some.inj hv1) ▸ hc
  · intro s hs1
    refine ⟨hall s hs1, fun hk => ?_⟩
    obtain ⟨scores1, hs2, _, hall1⟩ := readRanks_spec (pages rawPages) ranks _ (pages rawPages)
      (fun u hu => hu) (h1 hk)
    rw [hs] at hs2
    exact hall1 s ((Option.some.inj hs2) ▸ hs1)

end C7


section PageRankMass

variable {α : Type} [LinearOrderedField α]

theorem sum_map_le (l : List String) (f g : String → α) (hle : ∀ u ∈ l, g u ≤ f u) :
    (l.map g).sum ≤ (l.map f).sum := by
  induction l with
  | nil => simp
  | cons u rest ih =>
    simp only [List.map_cons, List.sum_cons]
    have h1 := hle u (List.mem_cons_self _ _)
    have h2 := ih (fun v hv => hle v (List.mem_cons_of_mem _ hv))
    linarith

theorem sum_map_le_sub (l : List String) (f g : String → α) (u0 : String) (hu0 : u0 ∈ l)
    (hle : ∀ u ∈ l, g u ≤ f u) (hg0 : g u0 = 0) :
    (l.map g).sum ≤ (l.map f).sum - f u0 := by
  induction l with
  | nil => simp at hu0
  | cons u rest ih =>
    simp only [List.map_cons, List.sum_cons]
    have hrest : ∀ v ∈ rest, g v ≤ f v := fun v hv => hle v (List.mem_cons_of_mem _ hv)
    by_cases hu : u = u0
    · subst hu
      have h2 := sum_map_le rest f g hrest
      rw [hg0]
      linarith
    · have hmem : u0 ∈ rest := by
        rcases List.mem_cons.mp hu0 with h | h
        · exact absurd h.symm hu
        · exact h
      have h1 := hle u (List.mem_cons_self _ _)
      have h2 := ih hmem hrest
      linarith

theorem linkedRank_le (rawPages : List RawPage) (ranks : JSObject α)
    (hranks : RanksAtLeast (pages rawPages) 0 ranks) (u : String) (hu : u ∈ pages rawPages) :
    linkedRank rawPages ranks u ≤ rankOf ranks u := by
  obtain ⟨v, hv, hv0⟩ := hranks u hu
  have hrank : rankOf ranks u = v := by simp [rankOf, hv]
  unfold linkedRank
  split
  · exact le_refl _
  · rw [hrank]
    exact hv0

theorem linkedMass_le (rawPages : List RawPage) (ranks : JSObject α)
    (hranks : RanksAtLeast (pages rawPages) 0 ranks) :
    linkedMass rawPages ranks ≤ massOf (pages rawPages) ranks :=
  sum_map_le (pages rawPages) (rankOf ranks) (linkedRank rawPages ranks)
    (linkedRank_le rawPages ranks hranks)

theorem linkedMass_eq (rawPages : List RawPage) (ranks : JSObject α)
    (hlinked : ∀ p ∈ rawPages, ∃ l ∈ p.link, l ∈ pages rawPages) :
    linkedMass rawPages ranks = massOf (pages rawPages) ranks := by
  unfold linkedMass massOf
  congr 1
  apply List.map_congr_left
  intro u hu
  obtain ⟨p, hp, _, hget⟩ := getOwn_linksMap_isSome rawPages u hu
  obtain ⟨l, hl, hlp⟩ := hlinked p hp
  have hmem : l ∈ p.link.filter (fun l => decide (l ∈ pages rawPages)) :=
    List.mem_filter.mpr ⟨hl, by simpa using hlp⟩
  unfold linkedRank
  rw [hget]
  cases hout : p.link.filter (fun l => decide (l ∈ pages rawPages)) with
  | nil => simp [hout] at hmem
  | cons d rest => rfl

theorem massOf_ranksAfter_of_linked (rawPages : List RawPage)
    (hnodup : (pages rawPages).Nodup) (hN : 1 ≤ (pages rawPages).length)
    (hlinked : ∀ p ∈ rawPages, ∃ l ∈ p.link, l ∈ pages rawPages) (k : Nat) :
    ∃ ranks : JSObject α, ranksAfter rawPages k = some ranks ∧
      RanksAtLeast (pages rawPages) 0 ranks ∧ massOf (pages rawPages) ranks = 1 := by
  induction k with
  | zero =>
    obtain ⟨ranks, hr, h0, _⟩ := ranksAfter_spec (α := α) rawPages 0
    refine ⟨ranks, hr, h0, ?_⟩
    simp only [ranksAfter, Option.some.injEq] at hr
    rw [← hr]
    exact massOf_initialRanks rawPages hN
  | succ k ih =>
    obtain ⟨ranks, hr, h0, hmass⟩ := ih
    obtain ⟨ranks1, hr1, hinv, hmass1⟩ := iterate_spec rawPages ranks h0
    refine ⟨ranks1, ?_, ranksAtLeast_mono _ _ 0 _ (base_nonneg _) hinv, ?_⟩
    · simp only [ranksAfter, hr]
      exact hr1
    · rw [hmass1 hnodup hN, linkedMass_eq rawPages ranks hlinked, hmass]
      ring

theorem scoresAfter_sum (rawPages : List RawPage) (k : Nat) (ranks : JSObject α)
    (hr : ranksAfter rawPages k = some ranks) (h0 : RanksAtLeast (pages rawPages) 0 ranks) :
    ∃ scores, scoresAfter rawPages k = some scores ∧
      scores.sum = massOf (pages rawPages) ranks := by
  obtain ⟨scores, hs, hmap, _⟩ :=
    readRanks_spec (pages rawPages) ranks 0 (pages rawPages) (fun u hu => hu) h0
  refine ⟨scores, ?_, ?_⟩
  · simp only [scoresAfter, hr]
    exact hs
  · rw [hmap]
    rfl

end PageRankMass

section C8

variable {α : Type} [LinearOrderedField α]

/-- C8: for raw pages with pairwise distinct URLs, at least one page, and on
every page at least one outbound link to a known page, the sum of the ranks
is exactly 1 before the first pass and after every pass; so is the sum of the
scores written to the artifact. -/
theorem rank_sum_conserved (rawPages : List RawPage) (k : Nat)
    (hnodup : (pages rawPages).Nodup) (hN : 1 ≤ rawPages.length)
    (hlinked : ∀ p ∈ rawPages, ∃ l ∈ p.link, l ∈ pages rawPages) :
    ∃ (ranks : JSObject α) (scores : List α),
      ranksAfter rawPages k = some ranks ∧ scoresAfter rawPages k = some scores ∧
      massOf (pages rawPages) ranks = 1 ∧ scores.sum = 1 := by
  have hN1 : 1 ≤ (pages rawPages).length := by simpa [pages] using hN
  obtain ⟨ranks, hr, h0, hmass⟩ := massOf_ranksAfter_of_linked (α := α) rawPages hnodup hN1 hlinked k
  obtain ⟨scores, hs, hsum⟩ := scoresAfter_sum rawPages k ranks hr h0
  exact ⟨ranks, scores, hr, hs, hmass, hsum.trans hmass⟩

end C8

/-- Witness for C8: the three-page cycle after the ten passes of the
program, over the rationals. -/
theorem rank_sum_conserved_witness :
    ((pages cyclePages).Nodup ∧ 1 ≤ cyclePages.length ∧
      ∀ p ∈ cyclePages, ∃ l ∈ p.link, l ∈ pages cyclePages) ∧
    ∃ (ranks : JSObject ℚ) (scores : List ℚ),
      ranksAfter cyclePages iterations = some ranks ∧
      scoresAfter cyclePages iterations = some scores ∧
      massOf (pages cyclePages) ranks = 1 ∧ scores.sum = 1 :=
  ⟨by decide, rank_sum_conserved cyclePages iterations (by decide) (by decide) (by decide)⟩


section PageRankDangling

variable {α : Type} [LinearOrderedField α]

theorem damping_pos : (0 : α) < damping := by
  unfold damping
  norm_num

theorem base_pos (n : Nat) (hn : 1 ≤ n) : (0 : α) < (1 - damping) / (n : α) := by
  apply div_pos
  · have := damping_lt_one (α := α)
    linarith
  · have : 0 < n := hn
    positivity

theorem massOf_ranksAfter_le_one (rawPages : List RawPage)
    (hnodup : (pages rawPages).Nodup) (hN : 1 ≤ (pages rawPages).length) (k : Nat) :
    ∃ ranks : JSObject α, ranksAfter rawPages k = some ranks ∧
      RanksAtLeast (pages rawPages) ((1 - damping) / ((pages rawPages).length : α)) ranks ∧
      massOf (pages rawPages) ranks ≤ 1 := by
  induction k with
  | zero =>
    refine ⟨initialRanks rawPages, rfl, ?_, le_of_eq (massOf_initialRanks rawPages hN)⟩
    apply ranksAtLeast_mono _ (1 / ((pages rawPages).length : α)) _ _ ?_
      (ranksAtLeast_const (pages rawPages) _)
    apply div_le_div_of_nonneg_right _ (Nat.cast_nonneg _)
    have := damping_nonneg (α := α)
    linarith
  | succ k ih =>
    obtain ⟨ranks, hr, hpos, hmass⟩ := ih
    have h0 : RanksAtLeast (pages rawPages) 0 ranks :=
      ranksAtLeast_mono _ _ 0 _ (base_nonneg _) hpos
    obtain ⟨ranks1, hr1, hinv, hmass1⟩ := iterate_spec rawPages ranks h0
    refine ⟨ranks1, ?_, hinv, ?_⟩
    · simp only [ranksAfter, hr]
      exact hr1
    · rw [hmass1 hnodup hN]
      have hle := linkedMass_le rawPages ranks h0
      have hd := damping_nonneg (α := α)
      nlinarith

theorem linkedMass_lt (rawPages : List RawPage) (hnodup : (pages rawPages).Nodup)
    (p0 : RawPage) (hp0 : p0 ∈ rawPages) (hdang : ∀ l ∈ p0.link, l ∉ pages rawPages)
    (ranks : JSObject α)
    (hpos : RanksAtLeast (pages rawPages) ((1 - damping) / ((pages rawPages).length : α)) ranks) :
    linkedMass rawPages ranks < massOf (pages rawPages) ranks := by
  have hN : 1 ≤ (pages rawPages).length := by
    have := List.length_pos_of_mem (mem_pages_of_mem rawPages p0 hp0)
    omega
  have h0 : RanksAtLeast (pages rawPages) 0 ranks :=
    ranksAtLeast_mono _ _ 0 _ (base_nonneg _) hpos
  have hu0 := mem_pages_of_mem rawPages p0 hp0
  have hempty : p0.link.filter (fun l => decide (l ∈ pages rawPages)) = [] := by
    rw [List.filter_eq_nil_iff]
    intro l hl
    simpa using hdang l hl
  have hzero : linkedRank rawPages ranks p0.url = 0 := by
    unfold linkedRank
    rw [getOwn_linksMap_of_nodup rawPages hnodup p0 hp0, hempty]
  have hle := sum_map_le_sub (pages rawPages) (rankOf ranks) (linkedRank rawPages ranks)
    p0.url hu0 (linkedRank_le rawPages ranks h0) hzero
  obtain ⟨v, hv, hcv⟩ := hpos p0.url hu0
  have hrank : rankOf ranks p0.url = v := by simp [rankOf, hv]
  have hvpos : (0 : α) < v := lt_of_lt_of_le (base_pos _ hN) hcv
  unfold linkedMass massOf
  rw [hrank] at hle
  linarith

end PageRankDangling

section C9

variable {α : Type} [LinearOrderedField α]

/-- C9: for raw pages with pairwise distinct URLs of which at least one has
no outbound link to a known page, after every pass the sum of the scores
equals `(1 - damping) + damping * (sum of the previous ranks of the pages with
an outbound link to a known page)`, and it is strictly less than 1. -/
theorem rank_sum_dangling (rawPages : List RawPage) (k : Nat)
    (hnodup : (pages rawPages).Nodup)
    (hdangling : ∃ p ∈ rawPages, ∀ l ∈ p.link, l ∉ pages rawPages) :
    ∃ (ranks ranks1 : JSObject α) (scores : List α),
      ranksAfter rawPages k = some ranks ∧ ranksAfter rawPages (k + 1) = some ranks1 ∧
      scoresAfter rawPages (k + 1) = some scores ∧
      scores.sum = (1 - damping) + damping * linkedMass rawPages ranks ∧
      scores.sum < 1 := by
  obtain ⟨p0, hp0, hdang⟩ := hdangling
  have hN : 1 ≤ (pages rawPages).length := by
    have := List.length_pos_of_mem (mem_pages_of_mem rawPages p0 hp0)
    omega
  obtain ⟨ranks, hr, hpos, hmass⟩ := massOf_ranksAfter_le_one (α := α) rawPages hnodup hN k
  have h0 : RanksAtLeast (pages rawPages) 0 ranks :=
    ranksAtLeast_mono _ _ 0 _ (base_nonneg _) hpos
  obtain ⟨ranks1, hr1, hinv, hmass1⟩ := iterate_spec rawPages ranks h0
  have hr2 : ranksAfter rawPages (k + 1) = some ranks1 := by
    simp only [ranksAfter, hr]
    exact hr1
  have h1 : RanksAtLeast (pages rawPages) 0 ranks1 :=
    ranksAtLeast_mono _ _ 0 _ (base_nonneg _) hinv
  obtain ⟨scores, hs, hsum⟩ := scoresAfter_sum rawPages (k + 1) ranks1 hr2 h1
  have hlt := linkedMass_lt rawPages hnodup p0 hp0 hdang ranks hpos
  have hd := damping_pos (α := α)
  refine ⟨ranks, ranks1, scores, hr, hr2, hs, ?_, ?_⟩
  · rw [hsum, hmass1 hnodup hN]
  · rw [hsum, hmass1 hnodup hN]
    nlinarith

end C9

/-- Witness for C9: three pages of which the last links only to an unknown
page, after the ten passes of the program, over the rationals. -/
theorem rank_sum_dangling_witness :
    ((pages danglingPages).Nodup ∧
      ∃ p ∈ danglingPages, ∀ l ∈ p.link, l ∉ pages danglingPages) ∧
    ∃ (ranks ranks1 : JSObject ℚ) (scores : List ℚ),
      ranksAfter danglingPages 9 = some ranks ∧ ranksAfter danglingPages (9 + 1) = some ranks1 ∧
      scoresAfter danglingPages (9 + 1) = some scores ∧
      scores.sum = (1 - damping) + damping * linkedMass danglingPages ranks ∧
      scores.sum < 1 :=
  ⟨by decide, rank_sum_dangling danglingPages 9 (by decide) (by decide)⟩


/-- C10 (as stated, refuted): in a list of two raw pages with the same URL
there is a page `p` for which `linksMap[p.url]` is not the sub-list of
`p.link` of the links to known pages. -/
theorem linksMap_repeated_url :
    ∃ p ∈ repeatedPages,
      getOwn (linksMap repeatedPages) p.url ≠
        some (p.link.filter (fun l => decide (∃ q ∈ repeatedPages, q.url = l))) := by
  decide

section C10

variable {α : Type} [LinearOrderedField α]

/-- C10 (amended): when the URLs are pairwise distinct, `linksMap[p.url]` is
the sub-list of `p.link` (order and duplicates kept) of the links whose target
is the URL of some raw page.  For every list of raw pages, `N` is the number
of raw pages, every kept link of a page names a key of the initialised
`newRanks`, and the loop returns after any number of passes: no update reads
an undefined rank. -/
theorem linksMap_restricted (rawPages : List RawPage) :
    ((pages rawPages).Nodup → ∀ p ∈ rawPages,
      getOwn (linksMap rawPages) p.url =
        some (p.link.filter (fun l => decide (∃ q ∈ rawPages, q.url = l)))) ∧
    (pages rawPages).length = rawPages.length ∧
    (∀ u outgoing, getOwn (linksMap rawPages) u = some outgoing →
      ∀ dest ∈ outgoing, ∃ r : α, getOwn (baseRanks rawPages) dest = some r) ∧
    (∀ k, ∃ ranks : JSObject α, ranksAfter rawPages k = some ranks) := by
  refine ⟨?_, by simp [pages], ?_, ?_⟩
  · intro hnodup p hp
    rw [getOwn_linksMap_of_nodup rawPages hnodup p hp]
    congr 1
    apply List.filter_congr
    intro l _
    simp [pages]
  · intro u outgoing hget dest hdest
    have hmem := mem_pages_of_mem_outgoing rawPages u dest outgoing hget hdest
    obtain ⟨v, hv, _⟩ := ranksAtLeast_const (pages rawPages)
      ((1 - damping) / ((pages rawPages).length : α)) dest hmem
    exact ⟨v, hv⟩
  · intro k
    obtain ⟨ranks, hr, _⟩ := ranksAfter_spec (α := α) rawPages k
    exact ⟨ranks, hr⟩

end C10

/-- Witness for C10: three pages with distinct URLs, one with a duplicate
link, a self-link and a link to an unknown page, one with no kept link. -/
theorem linksMap_restricted_witness :
    (pages danglingPages).Nodup ∧
    (∀ p ∈ danglingPages,
      getOwn (linksMap danglingPages) p.url =
        some (p.link.filter (fun l => decide (∃ q ∈ danglingPages, q.url = l)))) ∧
    linksMap danglingPages =
      [("https://example.org/a",
         ["https://example.org/b", "https://example.org/b", "https://example.org/a"]),
       ("https://example.org/b", ["https://example.org/c"]),
       ("https://example.org/c", [])] :=
  ⟨by decide, (linksMap_restricted (α := ℚ) danglingPages).1 (by decide), by decide⟩


/-! ## The idf and term-score expressions -/

theorem idf_arg_eq (N df : Nat) :
    (1 : ℝ) + ((N : ℝ) - (df : ℝ) + 0.5) / ((df : ℝ) + 0.5) = ((N : ℝ) + 1) / ((df : ℝ) + 0.5) := by
  have h : (0 : ℝ) < (df : ℝ) + 0.5 := by positivity
  field_simp
  ring

theorem idf_eq_log (N df : Nat) :
    idf Real.log N df = Real.log (((N : ℝ) + 1) / ((df : ℝ) + 0.5)) := by
  unfold idf
  rw [idf_arg_eq]

/-- C11: for a fixed corpus size `N`, the idf of `bm25Score` (with the natural
logarithm) is strictly decreasing in the document frequency. -/
theorem idf_strictly_decreasing (N df1 df2 : Nat) (h : df1 < df2) :
    idf Real.log N df2 < idf Real.log N df1 := by
  rw [idf_eq_log, idf_eq_log]
  have h1 : (0 : ℝ) < (df1 : ℝ) + 0.5 := by positivity
  have h2 : (0 : ℝ) < (df2 : ℝ) + 0.5 := by positivity
  have hN : (0 : ℝ) < (N : ℝ) + 1 := by positivity
  have hlt : (df1 : ℝ) < (df2 : ℝ) := by exact_mod_cast h
  apply Real.log_lt_log (div_pos hN h2)
  apply div_lt_div_of_pos_left hN h1
  linarith

/-- Witness for C11: `N = 3`, document frequencies 1 and 2. -/
theorem idf_strictly_decreasing_witness : idf Real.log 3 2 < idf Real.log 3 1 :=
  idf_strictly_decreasing 3 1 2 (by decide)

section C12

variable {α : Type} [LinearOrderedField α]

/-- C12 (amended): for a non-negative idf, a document length `dl` and a
positive average length, the term score of `bm25Score` is non-decreasing in
the term frequency. -/
theorem termScore_mono (idfT : α) (tf1 tf2 dl : Nat) (avgLen : α) (hidf : 0 ≤ idfT)
    (havg : 0 < avgLen) (htf : tf1 ≤ tf2) :
    termScore idfT tf1 dl avgLen ≤ termScore idfT tf2 dl avgLen := by
  unfold termScore
  simp only
  have hK : (0 : α) < k1 * (1 - b + b * ((dl : α) / avgLen)) := by
    have hdl : (0 : α) ≤ (dl : α) / avgLen := div_nonneg (Nat.cast_nonneg dl) (le_of_lt havg)
    unfold k1 b
    norm_num
    nlinarith
  have hk1 : (0 : α) < k1 + 1 := by
    unfold k1
    norm_num
  have h1 : (0 : α) ≤ (tf1 : α) := Nat.cast_nonneg tf1
  have h2 : (tf1 : α) ≤ (tf2 : α) := by exact_mod_cast htf
  apply mul_le_mul_of_nonneg_left _ hidf
  rw [div_le_div_iff₀ (by linarith) (by linarith)]
  have hdiff := mul_nonneg (mul_nonneg (le_of_lt hk1) (le_of_lt hK)) (sub_nonneg.mpr h2)
  linarith [hdiff, mul_comm (tf1 : α) (tf2 : α)]

end C12

/-- Witness for C12: idf 1, term frequencies 1 and 2, length 3, average 8/3. -/
theorem termScore_mono_witness :
    termScore (1 : ℚ) 1 3 (8 / 3) ≤ termScore (1 : ℚ) 2 3 (8 / 3) :=
  termScore_mono 1 1 2 3 (8 / 3) (by norm_num) (by norm_num) (by decide)

/-- C12 (as stated, refuted): with the negative idf value `-1` the term score
decreases from term frequency 1 to term frequency 2. -/
theorem termScore_not_mono_negative_idf :
    ¬ (termScore (-1 : ℚ) 1 1 1 ≤ termScore (-1 : ℚ) 2 1 1) := by
  unfold termScore k1 b
  norm_num

theorem idf_pos_of_le (N df : Nat) (h : df ≤ N) : 0 < idf Real.log N df := by
  have h2 : (0 : ℝ) < (df : ℝ) + 0.5 := by positivity
  rw [idf_eq_log]
  apply Real.log_pos
  rw [one_lt_div h2]
  have : (df : ℝ) ≤ (N : ℝ) := by exact_mod_cast h
  norm_num
  linarith

theorem idf_neg_iff (N df : Nat) : idf Real.log N df < 0 ↔ N < df := by
  have h2 : (0 : ℝ) < (df : ℝ) + 0.5 := by positivity
  have hN : (0 : ℝ) < (N : ℝ) + 1 := by positivity
  have hpos : (0 : ℝ) < ((N : ℝ) + 1) / ((df : ℝ) + 0.5) := div_pos hN h2
  rw [idf_eq_log, Real.log_neg_iff hpos, div_lt_one h2]
  constructor
  · intro h
    by_contra hle
    have : (df : ℝ) ≤ (N : ℝ) := by exact_mod_cast (Nat.le_of_not_lt hle)
    norm_num at h
    linarith
  · intro h
    have : (N : ℝ) + 1 ≤ (df : ℝ) := by exact_mod_cast h
    norm_num
    linarith

/-- C13 (amended): the idf of `bm25Score` is positive whenever the document
frequency is at most the corpus size, and it is negative exactly when the
document frequency exceeds the corpus size. -/
theorem idf_sign (N df : Nat) :
    (df ≤ N → 0 < idf Real.log N df) ∧ (idf Real.log N df < 0 ↔ N < df) :=
  ⟨idf_pos_of_le N df, idf_neg_iff N df⟩

/-- C13 (as stated, refuted): no corpus size `N` and document frequency
`1 ≤ df ≤ N` give a negative idf. -/
theorem idf_never_negative :
    ¬ ∃ N df : Nat, 1 ≤ df ∧ df ≤ N ∧ idf Real.log N df < 0 := by
  rintro ⟨N, df, _, hle, hneg⟩
  exact absurd (idf_pos_of_le N df hle) (not_lt.mpr (le_of_lt hneg))

/-- C14 (as stated, refuted): on the empty corpus with the empty index the
query "dog" makes `bm25Score` and `search` return a normal result, the empty
score object and the empty result list; no error is raised. -/
theorem search_empty_corpus_returns :
    bm25Score Real.log [] [] (tokenize "dog") = [] ∧
      search Real.log [] [] (examplePageRanks : List (PageRankEntry ℝ)) "dog" = some [] := by
  have ht : tokenize "dog" = ["dog"] := by decide
  simp [search, searchResults, bm25Score, ht, forEach, scoreTerm, getOwn, List.insertionSort]

section C14

variable {α : Type} [LinearOrderedField α]

/-- C14 (amended): `bm25.js` has no check for an empty corpus.  With an empty
corpus and an index that names no document, every query makes `bm25Score`
return the empty score object and `search` return the empty result list;
`avgDocLen` is the quotient `0 / 0`, computed without a check. -/
theorem search_empty_corpus (ln : α → α) (index : Index) (pageRanks : List (PageRankEntry α))
    (query : String) (hindex : IndexWithinCorpus [] index) :
    (avgDocLen [] : α) = 0 / ((0 : Nat) : α) ∧
    bm25Score ln [] index (tokenize query) = [] ∧
      search ln [] index pageRanks query = some [] := by
  have hadds : ∀ t, termAdditions ln [] index t = [] := by
    intro t
    unfold termAdditions
    cases hget : getOwn index t with
    | none => rfl
    | some posting =>
      have hp := hindex (t, posting) (getOwn_mem _ _ _ hget)
      have hnil : posting = [] := by
        cases posting with
        | nil => rfl
        | cons e rest =>
          have := hp e.1 (by simp [keys])
          simp at this
      simp [hnil, additions]
  have hflat : (tokenize query).flatMap (termAdditions ln [] index) = [] := by
    rw [List.flatMap_eq_nil_iff]
    intro t _
    exact hadds t
  have hscore : bm25Score ln [] index (tokenize query) = [] := by
    rw [bm25Score_eq ln [] index hindex, hflat]
    rfl
  refine ⟨rfl, hscore, ?_⟩
  simp [search, searchResults, hscore, forEach]

end C14

/-- Witness for C14: the empty corpus with an index that has one term with an
empty posting. -/
theorem search_empty_corpus_witness :
    IndexWithinCorpus [] [("dog", [])] ∧
    (avgDocLen [] : ℝ) = 0 / ((0 : Nat) : ℝ) ∧
    bm25Score Real.log [] [("dog", [])] (tokenize "dog days") = [] ∧
      search Real.log [] [("dog", [])] (examplePageRanks : List (PageRankEntry ℝ))
        "dog days" = some [] :=
  ⟨by decide, search_empty_corpus Real.log [("dog", [])] examplePageRanks "dog days" (by decide)⟩


theorem buildIndex_exampleDocuments :
    buildIndex exampleDocuments =
      [("cat", [("doc_1", 1), ("doc_3", 1)]), ("dog", [("doc_1", 1), ("doc_2", 2)]),
       ("bird", [("doc_2", 1), ("doc_3", 2)])] := by
  decide

theorem docLength_exampleDocuments :
    docLength exampleDocuments = [("doc_1", 2), ("doc_2", 3), ("doc_3", 3)] := by
  decide

theorem avgDocLen_exampleDocuments : (avgDocLen exampleDocuments : ℝ) = 8 / 3 := by
  simp [avgDocLen, exampleDocuments]
  norm_num

/-- C15: on the example corpus with the index built from it, `bm25Score` for
the query `["dog"]` has entries exactly for documents 1 and 2, both numbers;
document 2 scores higher than document 1, and both scores are positive. -/
theorem bm25Score_example :
    ∃ s1 s2 : ℝ,
      bm25Score Real.log exampleDocuments (buildIndex exampleDocuments) ["dog"] =
        numbers [("doc_1", s1), ("doc_2", s2)] ∧
      0 < s1 ∧ s1 < s2 := by
  have hidf : 0 < idf Real.log 3 2 := idf_pos_of_le 3 2 (by decide)
  refine ⟨termScore (idf Real.log 3 2) 1 2 (8 / 3), termScore (idf Real.log 3 2) 2 3 (8 / 3),
    ?_, ?_, ?_⟩
  · rw [bm25Score_eq Real.log exampleDocuments (buildIndex exampleDocuments) (by decide)]
    have hget : getOwn (buildIndex exampleDocuments) "dog" = some [("doc_1", 1), ("doc_2", 2)] := by
      decide
    have h1 : getOwn (docLength exampleDocuments) "doc_1" = some 2 := by decide
    have h2 : getOwn (docLength exampleDocuments) "doc_2" = some 3 := by decide
    have hlen : exampleDocuments.length = 3 := rfl
    simp only [List.flatMap_cons, List.flatMap_nil, List.append_nil, termAdditions, hget,
      additions, List.map_cons, List.map_nil, h1, h2, Option.getD_some, keys, List.length_cons,
      List.length_nil, avgDocLen_exampleDocuments, hlen, applyAdditions, List.foldl_cons,
      List.foldl_nil]
    simp [addNumber, getOwn, setOwn]
  · unfold termScore k1 b
    simp only
    apply mul_pos hidf
    norm_num
  · unfold termScore k1 b
    simp only
    apply mul_lt_mul_of_pos_left _ hidf
    norm_num


section C16

variable {α : Type} [LinearOrderedField α]

theorem linksMap_cyclePages :
    linksMap cyclePages =
      [("https://example.org/a", ["https://example.org/b"]),
       ("https://example.org/b", ["https://example.org/c"]),
       ("https://example.org/c", ["https://example.org/a"])] := by
  decide

theorem pages_cyclePages :
    pages cyclePages =
      ["https://example.org/a", "https://example.org/b", "https://example.org/c"] := by
  decide

theorem iterate_cyclePages :
    iterate cyclePages
        ([("https://example.org/a", 1 / 3), ("https://example.org/b", 1 / 3),
          ("https://example.org/c", 1 / 3)] : JSObject α) =
      some [("https://example.org/a", 1 / 3), ("https://example.org/b", 1 / 3),
          ("https://example.org/c", 1 / 3)] := by
  have hab : ¬ "https://example.org/a" = "https://example.org/b" := by decide
  have hac : ¬ "https://example.org/a" = "https://example.org/c" := by decide
  have hbc : ¬ "https://example.org/b" = "https://example.org/c" := by decide
  have hba : ¬ "https://example.org/b" = "https://example.org/a" := by decide
  have hca : ¬ "https://example.org/c" = "https://example.org/a" := by decide
  have hcb : ¬ "https://example.org/c" = "https://example.org/b" := by decide
  simp only [iterate, baseRanks, pages_cyclePages, linksMap_cyclePages, forEach, distribute,
    List.foldl_cons, List.foldl_nil, setOwn, getOwn, addShare, List.length_cons, List.length_nil,
    hab, hac, hbc, hba, hca, hcb, if_true, if_false]
  norm_num [damping, getOwn, setOwn, hab, hac, hbc, hba, hca, hcb]

theorem ranksAfter_cyclePages (k : Nat) :
    ranksAfter cyclePages k =
      some ([("https://example.org/a", 1 / 3), ("https://example.org/b", 1 / 3),
          ("https://example.org/c", 1 / 3)] : JSObject α) := by
  induction k with
  | zero =>
    simp only [ranksAfter, initialRanks, pages_cyclePages, List.foldl_cons, List.foldl_nil, setOwn]
    simp
  | succ k ih =>
    simp only [ranksAfter, ih]
    exact iterate_cyclePages

/-- C16: for the three-page cycle A → B, B → C, C → A the three ranks are
equal, each exactly 1/3, after every number of passes, in particular after
the ten passes of the program. -/
theorem cycle_ranks_equal (k : Nat) :
    scoresAfter cyclePages k = some ([1 / 3, 1 / 3, 1 / 3] : List α) ∧
      scoresAfter cyclePages iterations = some ([1 / 3, 1 / 3, 1 / 3] : List α) := by
  have h : ∀ n, scoresAfter cyclePages n = some ([1 / 3, 1 / 3, 1 / 3] : List α) := by
    intro n
    simp only [scoresAfter, ranksAfter_cyclePages, pages_cyclePages]
    simp [readRanks, getOwn]
  exact ⟨h k, h iterations⟩

end C16


section C18

variable {α : Type} [LinearOrderedField α]

theorem forEach_none_of_mem {S B : Type} (body : S → B → Option S) (l : List B)
    (h : ∃ x ∈ l, ∀ s, body s x = none) (s : S) : forEach body s l = none := by
  induction l generalizing s with
  | nil =>
    obtain ⟨x, hx, _⟩ := h
    simp at hx
  | cons y rest ih =>
    obtain ⟨x, hx, hbody⟩ := h
    simp only [forEach]
    cases hb : body s y with
    | none => rfl
    | some s1 =>
      rcases List.mem_cons.mp hx with hxy | hxr
      · rw [← hxy, hbody s] at hb
        exact absurd hb (by simp)
      · exact ih ⟨x, hxr, hbody⟩ s1

theorem getOwn_addScore_ne (scores : JSObject (JSNumber α)) (docId key : String)
    (score : JSNumber α) (hne : docId ≠ key) :
    getOwn (addScore scores docId score) key = getOwn scores key := by
  unfold addScore
  rw [getOwn_setOwn_ne _ _ _ _ hne]
  split
  · split
    · exact getOwn_setOwn_ne _ _ _ _ hne
    · rfl
  · exact getOwn_setOwn_ne _ _ _ _ hne

theorem getOwn_addScore_nan (scores : JSObject (JSNumber α)) (docId : String) :
    getOwn (addScore scores docId none) docId = some none := by
  unfold addScore
  rw [getOwn_setOwn_self]
  cases getOwn _ docId with
  | none => rfl
  | some v => cases v <;> rfl

theorem getOwn_addScore_number (scores : JSObject (JSNumber α)) (docId : String) (x : α) :
    ∃ y, getOwn (addScore scores docId (some x)) docId = some (some y) := by
  unfold addScore
  rw [getOwn_setOwn_self]
  cases hget : getOwn scores docId with
  | none => exact ⟨0 + x, by simp [getOwn_setOwn_self, plus]⟩
  | some v =>
    cases v with
    | none => exact ⟨0 + x, by simp [getOwn_setOwn_self, plus]⟩
    | some w =>
      by_cases hw : w = 0
      · exact ⟨0 + x, by simp [hw, getOwn_setOwn_self, plus]⟩
      · exact ⟨w + x, by simp [hw, hget, plus]⟩

theorem foldl_scoreEntry_nan (documents : List Document) (idfT : α) (d : String)
    (hd : d ∉ documents.map Document.docId) (posting : Posting)
    (scores : JSObject (JSNumber α))
    (h : getOwn scores d = some none ∨ d ∈ keys posting) :
    getOwn (posting.foldl (scoreEntry documents idfT) scores) d = some none := by
  induction posting generalizing scores with
  | nil =>
    rcases h with h | h
    · exact h
    · simp [keys] at h
  | cons p rest ih =>
    rw [List.foldl_cons]
    apply ih
    by_cases hp : p.1 = d
    · left
      unfold scoreEntry
      rw [entryScore_of_not_mem documents idfT p (hp ▸ hd), ← hp]
      exact getOwn_addScore_nan scores p.1
    · rcases h with h | h
      · left
        unfold scoreEntry
        rw [getOwn_addScore_ne _ _ _ _ hp]
        exact h
      · right
        simp only [keys, List.map_cons, List.mem_cons] at h
        rcases h with h | h
        · exact absurd h.symm hp
        · exact h

theorem foldl_scoreTerm_nan (ln : α → α) (documents : List Document) (index : Index)
    (d : String) (hd : d ∉ documents.map Document.docId) (q : List String)
    (scores : JSObject (JSNumber α))
    (h : getOwn scores d = some none ∨
      ∃ t ∈ q, ∃ posting, getOwn index t = some posting ∧ d ∈ keys posting) :
    getOwn (q.foldl (scoreTerm ln documents index) scores) d = some none := by
  induction q generalizing scores with
  | nil =>
    rcases h with h | ⟨t, ht, _⟩
    · exact h
    · simp at ht
  | cons u rest ih =>
    rw [List.foldl_cons]
    apply ih
    have hstep : ∀ hint : getOwn scores d = some none ∨
        ∃ posting, getOwn index u = some posting ∧ d ∈ keys posting,
        getOwn (scoreTerm ln documents index scores u) d = some none := by
      intro hint
      unfold scoreTerm
      cases hget : getOwn index u with
      | none =>
        rcases hint with h1 | ⟨posting, hp, _⟩
        · exact h1
        · rw [hget] at hp
          exact absurd hp (by simp)
      | some posting =>
        simp only
        apply foldl_scoreEntry_nan documents _ d hd posting scores
        rcases hint with h1 | ⟨posting1, hp, hmem⟩
        · exact Or.inl h1
        · rw [hget] at hp
          exact Or.inr ((Option.some.inj hp) ▸ hmem)
    rcases h with h | ⟨t, ht, posting, hp, hmem⟩
    · exact Or.inl (hstep (Or.inl h))
    · rcases List.mem_cons.mp ht with htu | htr
      · exact Or.inl (hstep (Or.inr ⟨posting, htu ▸ hp, hmem⟩))
      · exact Or.inr ⟨t, htr, posting, hp, hmem⟩

/-- An entry of the score object for a docId of the corpus is a number: only
the docIds that the corpus does not have get the entry `NaN`. -/
theorem bm25Score_number_of_corpus (ln : α → α) (documents : List Document) (index : Index)
    (q : List String) (d : String) (hd : d ∈ documents.map Document.docId) :
    getOwn (bm25Score ln documents index q) d ≠ some none := by
  have hentry : ∀ (idfT : α) (posting : Posting) (scores : JSObject (JSNumber α)),
      getOwn scores d ≠ some none →
      getOwn (posting.foldl (scoreEntry documents idfT) scores) d ≠ some none := by
    intro idfT posting
    induction posting with
    | nil => exact fun _ h => h
    | cons p rest ih =>
      intro scores h
      rw [List.foldl_cons]
      apply ih
      by_cases hp : p.1 = d
      · unfold scoreEntry
        rw [entryScore_of_mem documents idfT p (hp ▸ hd)]
        obtain ⟨y, hy⟩ := getOwn_addScore_number scores p.1
          (termScore idfT p.2 ((getOwn (docLength documents) p.1).getD 0) (avgDocLen documents))
        rw [← hp, hy]
        simp
      · unfold scoreEntry
        rw [getOwn_addScore_ne _ _ _ _ hp]
        exact h
  have hterm : ∀ (t : String) (scores : JSObject (JSNumber α)),
      getOwn scores d ≠ some none →
      getOwn (scoreTerm ln documents index scores t) d ≠ some none := by
    intro t scores h
    unfold scoreTerm
    cases getOwn index t with
    | none => exact h
    | some posting => exact hentry _ posting scores h
  have hall : ∀ (l : List String) (scores : JSObject (JSNumber α)),
      getOwn scores d ≠ some none →
      getOwn (l.foldl (scoreTerm ln documents index) scores) d ≠ some none := by
    intro l
    induction l with
    | nil => exact fun _ h => h
    | cons t rest ih =>
      intro scores h
      rw [List.foldl_cons]
      exact ih _ (hterm t scores h)
  exact hall q [] (by simp [getOwn])

/-- The entry of `relevanceScores` for which `documents.find` finds a document
is a number: `pushResult` meets the score `NaN` only where `doc` is
`undefined`. -/
theorem score_number_of_found (ln : α → α) (documents : List Document) (index : Index)
    (q : List String) (p : String × JSNumber α) (doc : Document)
    (hp : p ∈ bm25Score ln documents index q)
    (hfind : documents.find? (fun x => decide (x.docId = p.1)) = some doc) :
    ∃ bm25, p.2 = some bm25 := by
  have hnodup : (keys (bm25Score ln documents index q)).Nodup :=
    nodup_keys_foldl_scoreTerm ln documents index q [] (by simp [keys])
  have hget := getOwn_of_mem_nodup _ p.1 p.2 hnodup hp
  have hmem : p.1 ∈ documents.map Document.docId := by
    have h1 := List.mem_of_find?_eq_some hfind
    have h2 := List.find?_some hfind
    exact List.mem_map.mpr ⟨doc, h1, by simpa using h2⟩
  have hne := bm25Score_number_of_corpus ln documents index q p.1 hmem
  rw [hget] at hne
  cases hv : p.2 with
  | none => exact absurd (by rw [hv]) hne
  | some bm25 => exact ⟨bm25, rfl⟩

/-- C18: a docId that receives a BM25 score, a docId in the posting of a
query term, and is absent from the corpus gets the entry `NaN` in the score
object that `bm25Score` returns; `documents.find` yields `undefined` for it,
and `search` fails at `doc.title`.  When every scored docId is in the corpus
`search` returns a result list. -/
theorem search_fails_iff_inconsistent (ln : α → α) (documents : List Document) (index : Index)
    (pageRanks : List (PageRankEntry α)) (query : String) :
    (∀ t ∈ tokenize query, ∀ posting, getOwn index t = some posting →
        ∀ d ∈ keys posting, d ∉ documents.map Document.docId →
      getOwn (bm25Score ln documents index (tokenize query)) d = some none ∧
      documents.find? (fun x => decide (x.docId = d)) = none ∧
      search ln documents index pageRanks query = none) ∧
    ((∀ t ∈ tokenize query, ∀ posting, getOwn index t = some posting →
        ∀ d ∈ keys posting, d ∈ documents.map Document.docId) →
      ∃ results, search ln documents index pageRanks query = some results) := by
  constructor
  · intro t ht posting hget d hd hbad
    have hnan : getOwn (bm25Score ln documents index (tokenize query)) d = some none :=
      foldl_scoreTerm_nan ln documents index d hbad (tokenize query) []
        (Or.inr ⟨t, ht, posting, hget, hd⟩)
    have hfind : documents.find? (fun x => decide (x.docId = d)) = none := by
      rw [List.find?_eq_none]
      intro x hx hxd
      exact hbad (List.mem_map.mpr ⟨x, hx, by simpa using hxd⟩)
    refine ⟨hnan, hfind, ?_⟩
    have hfail : forEach (pushResult documents pageRanks) []
        (bm25Score ln documents index (tokenize query)) = none := by
      apply forEach_none_of_mem
      refine ⟨(d, none), getOwn_mem _ _ _ hnan, fun s => ?_⟩
      simp [pushResult, hfind]
    simp [search, searchResults, hfail]
  · exact search_of_scored ln documents index pageRanks query

end C18

/-- Witness for C18: an index that names the docId `doc_9`, which the example
corpus does not have: for the query "dog" the score object has the entry `NaN`
for `doc_9`, no document is found for it, and `search` fails. -/
theorem search_fails_iff_inconsistent_witness :
    getOwn (bm25Score Real.log exampleDocuments [("dog", [("doc_1", 1), ("doc_9", 2)])]
      (tokenize "dog")) "doc_9" = some none ∧
    exampleDocuments.find? (fun x => decide (x.docId = "doc_9")) = none ∧
    search Real.log exampleDocuments [("dog", [("doc_1", 1), ("doc_9", 2)])]
      (examplePageRanks : List (PageRankEntry ℝ)) "dog" = none :=
  (search_fails_iff_inconsistent Real.log exampleDocuments
    [("dog", [("doc_1", 1), ("doc_9", 2)])] examplePageRanks "dog").1
      "dog" (by decide) [("doc_1", 1), ("doc_9", 2)] (by decide) "doc_9" (by decide)
      (by decide)

/-! ## Tokenization -/

theorem mem_splitWhiteSpace (text cur : List Char) (inSep : Bool)
    (hcur : ∀ c ∈ cur, isWhiteSpace c = false) (piece : List Char)
    (hp : piece ∈ splitWhiteSpace text cur inSep) (c : Char) (hc : c ∈ piece) :
    (c ∈ text ∨ c ∈ cur) ∧ isWhiteSpace c = false := by
  induction text generalizing cur inSep with
  | nil =>
    simp only [splitWhiteSpace, List.mem_singleton] at hp
    subst hp
    have hcc : c ∈ cur := List.mem_reverse.mp hc
    exact ⟨Or.inr hcc, hcur c hcc⟩
  | cons x rest ih =>
    simp only [splitWhiteSpace] at hp
    by_cases hx : isWhiteSpace x = true
    · simp only [hx, if_true] at hp
      have key : piece ∈ splitWhiteSpace rest [] true →
          (c ∈ x :: rest ∨ c ∈ cur) ∧ isWhiteSpace c = false := by
        intro hrest
        obtain ⟨h1, h2⟩ := ih [] true (fun d hd => absurd hd (List.not_mem_nil d)) hrest
        have hcr : c ∈ rest := by
          rcases h1 with h | h
          · exact h
          · exact absurd h (List.not_mem_nil c)
        exact ⟨Or.inl (List.mem_cons_of_mem _ hcr), h2⟩
      by_cases hs : inSep = true
      · simp only [hs, if_true] at hp
        exact key hp
      · simp only [hs] at hp
        rcases List.mem_cons.mp hp with h | h
        · subst h
          have hcc : c ∈ cur := List.mem_reverse.mp hc
          exact ⟨Or.inr hcc, hcur c hcc⟩
        · exact key h
    · simp only [hx] at hp
      have hx2 : isWhiteSpace x = false := by simpa using hx
      have hcur2 : ∀ d ∈ x :: cur, isWhiteSpace d = false := by
        intro d hd
        rcases List.mem_cons.mp hd with h | h
        · exact h ▸ hx2
        · exact hcur d h
      obtain ⟨h1, h2⟩ := ih (x :: cur) false hcur2 hp
      refine ⟨?_, h2⟩
      rcases h1 with h | h
      · exact Or.inl (List.mem_cons_of_mem _ h)
      · rcases List.mem_cons.mp h with h3 | h3
        · exact Or.inl (h3 ▸ List.mem_cons_self _ _)
        · exact Or.inr h3

theorem tokenize_letters (text : String) (w : String) (hw : w ∈ tokenize text) :
    (∀ c ∈ w.toList, isLowerLetter c = true) ∧ 2 ≤ w.length ∧ w ∉ stopwords := by
  unfold tokenize at hw
  obtain ⟨hmem, hfilter⟩ := List.mem_filter.mp hw
  obtain ⟨piece, hpiece, hmk⟩ := List.mem_map.mp hmem
  simp only [Bool.and_eq_true, decide_eq_true_eq, Bool.not_eq_true', decide_eq_false_iff_not]
    at hfilter
  refine ⟨?_, hfilter.1, hfilter.2⟩
  intro c hc
  have hcp : c ∈ piece := by
    rw [← hmk] at hc
    exact hc
  obtain ⟨h1, h2⟩ := mem_splitWhiteSpace _ [] false
    (fun d hd => absurd hd (List.not_mem_nil d)) piece hpiece c hcp
  have hct : c ∈ stripNonLetters (toLowerCase text.toList) := by
    rcases h1 with h | h
    · exact h
    · exact absurd h (List.not_mem_nil c)
  unfold stripNonLetters at hct
  have hor := (List.mem_filter.mp hct).2
  simpa [h2] using hor

/-- C19: the tokenizer of `tokenize.js` and the tokenizer of `search.js`
return the same token sequence for every text, the two stopword sets are
equal, and every token consists of letters `a`–`z` only, has at least two
characters and is not a stopword. -/
theorem tokenize_agree (text : String) :
    Processor.tokenize text = tokenize text ∧ Processor.stopwWords = stopwords ∧
      stopwords.length = 14 ∧
      ∀ w ∈ tokenize text,
        (∀ c ∈ w.toList, 97 ≤ c.toNat ∧ c.toNat ≤ 122) ∧ 2 ≤ w.length ∧ w ∉ stopwords := by
  refine ⟨rfl, rfl, rfl, ?_⟩
  intro w hw
  obtain ⟨h1, h2, h3⟩ := tokenize_letters text w hw
  refine ⟨fun c hc => ?_, h2, h3⟩
  simpa [isLowerLetter] using h1 c hc


/-! ## docIds -/

theorem digitChar_value : ∀ k, k < 10 → (Nat.digitChar k).toNat - 48 = k := by
  decide

theorem digitsValue_toDigitsCore (fuel n : Nat) (ds : List Char) (h : n < fuel) :
    digitsValue 0 (Nat.toDigitsCore 10 fuel n ds) = digitsValue n ds := by
  induction fuel generalizing n ds with
  | zero => omega
  | succ fuel ih =>
    simp only [Nat.toDigitsCore]
    have hmod : n % 10 < 10 := Nat.mod_lt n (by decide)
    have hd := digitChar_value (n % 10) hmod
    by_cases hq : n / 10 = 0
    · simp only [hq, if_true]
      have hn : n % 10 = n := by omega
      have hd2 : (Nat.digitChar (n % 10)).toNat - 48 = n := by rw [hd, hn]
      simp only [digitsValue, List.foldl_cons, Nat.mul_zero, Nat.zero_add, hd2]
    · simp only [hq, if_false]
      have hlt : n / 10 < fuel := by omega
      rw [ih (n / 10) _ hlt]
      simp only [digitsValue, List.foldl_cons, hd]
      congr 1
      omega

theorem repr_injective (n m : Nat) (h : Nat.repr n = Nat.repr m) : n = m := by
  unfold Nat.repr List.asString at h
  have hl : Nat.toDigits 10 n = Nat.toDigits 10 m := by
    injection h
  have h1 := digitsValue_toDigitsCore (n + 1) n [] (Nat.lt_succ_self n)
  have h2 := digitsValue_toDigitsCore (m + 1) m [] (Nat.lt_succ_self m)
  unfold Nat.toDigits at hl
  rw [hl, h2] at h1
  simpa [digitsValue] using h1.symm

theorem docId_injective (n m : Nat) (h : "doc_" ++ toString n = "doc_" ++ toString m) : n = m := by
  have h1 : toString n = toString m := by
    have := congrArg String.data h
    simp only [String.data_append, List.append_cancel_left_eq] at this
    exact String.ext this
  exact repr_injective n m h1


theorem extractFrom_ids (extractTitle extractBody : String → String) (rawPages : List RawPage)
    (i : Nat) :
    (extractFrom extractTitle extractBody rawPages i).map (fun d => (d.docId, d.url)) =
      (rawPages.enumFrom i).map (fun p => ("doc_" ++ toString (p.1 + 1), p.2.url)) := by
  induction rawPages generalizing i with
  | nil => rfl
  | cons page rest ih =>
    simp only [extractFrom, List.map_cons, List.enumFrom_cons, ih]

theorem enumFrom_ids_nodup (rawPages : List RawPage) (i : Nat) :
    (((rawPages.enumFrom i).map (fun p => ("doc_" ++ toString (p.1 + 1), p.2.url))).map
      Prod.fst).Nodup := by
  induction rawPages generalizing i with
  | nil => simp
  | cons page rest ih =>
    simp only [List.enumFrom_cons, List.map_cons, List.nodup_cons]
    refine ⟨?_, ih (i + 1)⟩
    intro hmem
    simp only [List.mem_map, Prod.exists] at hmem
    obtain ⟨a, _, ⟨j, p, hjp, hpair⟩, ha⟩ := hmem
    have hid : "doc_" ++ toString (j + 1) = "doc_" ++ toString (i + 1) := by
      have := congrArg Prod.fst hpair
      simp only at this
      rw [this, ha]
    have hji : j + 1 = i + 1 := docId_injective _ _ hid
    have hge : i + 1 ≤ j := List.le_fst_of_mem_enumFrom hjp
    omega

section C20

variable {α : Type} [LinearOrderedField α]

omit [LinearOrderedField α] in
theorem rankEntries_spec (m : JSObject α) (rawPages : List RawPage) (i : Nat)
    (hdef : ∀ p ∈ rawPages, ∃ v, getOwn m p.url = some v) :
    ∃ entries, rankEntries m (pages rawPages) i = some entries ∧
      entries.map (fun e => (e.docId, e.url)) =
        (rawPages.enumFrom i).map (fun p => ("doc_" ++ toString (p.1 + 1), p.2.url)) := by
  induction rawPages generalizing i with
  | nil => exact ⟨[], rfl, rfl⟩
  | cons page rest ih =>
    obtain ⟨v, hv⟩ := hdef page (List.mem_cons_self _ _)
    obtain ⟨entries, he, hmap⟩ := ih (i + 1) (fun p hp => hdef p (List.mem_cons_of_mem _ hp))
    refine ⟨{ docId := "doc_" ++ toString (i + 1), url := page.url, score := v } :: entries,
      ?_, ?_⟩
    · simp only [pages, List.map_cons, rankEntries, hv]
      simp only [pages] at he
      rw [he]
    · simp only [List.map_cons, List.enumFrom_cons, hmap]

/-- C20: for every list of raw pages the authority artifact of `pagerank.js`
has one entry per raw page, in page order, with pairwise distinct docIds; its
i-th entry has the docId `doc_<i+1>` and the url of the i-th raw page, the same
docId and url as the i-th document of `extractText.js` and as the i-th corpus
document that `tokenize.js` makes of it. -/
theorem docIds_stable (extractTitle extractBody : String → String) (rawPages : List RawPage) :
    ∃ entries : List (PageRankEntry α), pageRankData rawPages = some entries ∧
      entries.length = rawPages.length ∧
      (entries.map PageRankEntry.docId).Nodup ∧
      entries.map (fun e => (e.docId, e.url)) =
        (rawPages.enumFrom 0).map (fun p => ("doc_" ++ toString (p.1 + 1), p.2.url)) ∧
      (extractText extractTitle extractBody rawPages).map (fun d => (d.docId, d.url)) =
        entries.map (fun e => (e.docId, e.url)) ∧
      (Processor.processedDocuments (extractText extractTitle extractBody rawPages)).map
        (fun d => (d.docId, d.url)) = entries.map (fun e => (e.docId, e.url)) := by
  obtain ⟨ranks, hr, h0, _⟩ := ranksAfter_spec (α := α) rawPages iterations
  have hdef : ∀ p ∈ rawPages, ∃ v, getOwn ranks p.url = some v := by
    intro p hp
    obtain ⟨v, hv, _⟩ := h0 p.url (mem_pages_of_mem rawPages p hp)
    exact ⟨v, hv⟩
  obtain ⟨entries, he, hmap⟩ := rankEntries_spec ranks rawPages 0 hdef
  have hext := extractFrom_ids extractTitle extractBody rawPages 0
  refine ⟨entries, ?_, ?_, ?_, hmap, ?_, ?_⟩
  · simp only [pageRankData, pageRankDataAfter, hr]
    exact he
  · have := congrArg List.length hmap
    simpa using this
  · have hfst : entries.map PageRankEntry.docId =
        (entries.map (fun e => (e.docId, e.url))).map Prod.fst := by
      simp [List.map_map, Function.comp_def]
    rw [hfst, hmap]
    exact enumFrom_ids_nodup rawPages 0
  · rw [hmap]
    exact hext
  · rw [hmap, ← hext]
    simp [Processor.processedDocuments, extractText, List.map_map, Function.comp_def]

end C20


section PageRankPointwise

variable {α : Type} [LinearOrderedField α]

theorem rankOf_forEach_addShare (share : α) (outgoing : List String) (m m1 : JSObject α)
    (h : forEach (addShare share) m outgoing = some m1) (t : String) :
    rankOf m1 t = rankOf m t + ((outgoing.count t : Nat) : α) * (damping * share) := by
  induction outgoing generalizing m with
  | nil =>
    simp only [forEach, Option.some.injEq] at h
    simp [← h]
  | cons dest rest ih =>
    simp only [forEach, addShare] at h
    cases hget : getOwn m dest with
    | none => simp [hget] at h
    | some r =>
      simp only [hget] at h
      rw [ih _ h, rankOf_setOwn]
      by_cases hd : dest = t
      · subst hd
        have hr : rankOf m dest = r := by simp [rankOf, hget]
        simp only [if_true, List.count_cons_self, Nat.cast_add, Nat.cast_one, hr]
        ring
      · have hd2 : t ≠ dest := fun h => hd h.symm
        simp only [hd, if_false, List.count_cons_of_ne hd2]

theorem rankOf_distribute (rawPages : List RawPage) (ranks m m1 : JSObject α) (url : String)
    (h : distribute rawPages ranks m url = some m1) (t : String) :
    rankOf m1 t = rankOf m t + damping * (weight rawPages url t * rankOf ranks url) := by
  unfold distribute at h
  unfold weight
  cases hlinks : getOwn (linksMap rawPages) url with
  | none => simp [hlinks] at h
  | some outgoing =>
    simp only [hlinks] at h
    cases outgoing with
    | nil =>
      simp only [List.length_nil, if_true, Option.some.injEq] at h
      simp [← h]
    | cons d rest =>
      simp only [List.length_cons, Nat.succ_ne_zero, if_false] at h
      cases hr : getOwn ranks url with
      | none => simp [hr] at h
      | some r =>
        simp only [hr] at h
        rw [rankOf_forEach_addShare _ _ _ _ h t]
        have hrank : rankOf ranks url = r := by simp [rankOf, hr]
        rw [hrank]
        simp only [List.length_cons, Nat.cast_add, Nat.cast_one]
        ring

theorem rankOf_forEach_distribute (rawPages : List RawPage) (ranks : JSObject α)
    (l : List String) (m m1 : JSObject α)
    (h : forEach (distribute rawPages ranks) m l = some m1) (t : String) :
    rankOf m1 t =
      rankOf m t + damping * (l.map (fun s => weight rawPages s t * rankOf ranks s)).sum := by
  induction l generalizing m with
  | nil =>
    simp only [forEach, Option.some.injEq] at h
    simp [← h]
  | cons u rest ih =>
    simp only [forEach] at h
    cases hd : distribute rawPages ranks m u with
    | none => simp [hd] at h
    | some m2 =>
      simp only [hd] at h
      rw [ih _ h, rankOf_distribute rawPages ranks m m2 u hd t, List.map_cons, List.sum_cons]
      ring

theorem rankOf_iterate (rawPages : List RawPage) (ranks ranks1 : JSObject α)
    (h : iterate rawPages ranks = some ranks1) (t : String) (ht : t ∈ pages rawPages) :
    rankOf ranks1 t =
      (1 - damping) / ((pages rawPages).length : α) +
        damping * ((pages rawPages).map (fun s => weight rawPages s t * rankOf ranks s)).sum := by
  unfold iterate at h
  rw [rankOf_forEach_distribute rawPages ranks _ _ _ h t]
  congr 1
  unfold rankOf baseRanks
  rw [getOwn_foldl_const]
  simp [ht]

theorem weight_nonneg (rawPages : List RawPage) (s t : String) :
    (0 : α) ≤ weight rawPages s t := by
  unfold weight
  split
  · positivity
  · exact le_refl 0

end PageRankPointwise


section C17

variable {α : Type} [LinearOrderedField α]

theorem sum_weight_le_one (rawPages : List RawPage) (s : String) :
    ∑ t in (pages rawPages).toFinset, (weight rawPages s t : α) ≤ 1 := by
  unfold weight
  cases hlinks : getOwn (linksMap rawPages) s with
  | none => simp
  | some outgoing =>
    cases outgoing with
    | nil => simp
    | cons d rest =>
      simp only
      rw [← Finset.sum_div, ← Nat.cast_sum]
      have hsub : (d :: rest).toFinset ⊆ (pages rawPages).toFinset := by
        intro x hx
        rw [List.mem_toFinset] at hx ⊢
        exact mem_pages_of_mem_outgoing rawPages s x _ hlinks hx
      have hsum : ∑ t in (pages rawPages).toFinset, (d :: rest).count t = (d :: rest).length := by
        rw [← Finset.sum_subset hsub]
        · exact List.sum_toFinset_count_eq_length (d :: rest)
        · intro x _ hx
          rw [List.mem_toFinset] at hx
          exact List.count_eq_zero_of_not_mem hx
      rw [hsum]
      have hpos : (0 : α) < (((d :: rest).length : Nat) : α) := by
        simp only [List.length_cons, Nat.cast_add, Nat.cast_one]
        positivity
      rw [div_self (ne_of_gt hpos)]

theorem change_contracts (rawPages : List RawPage) (hnodup : (pages rawPages).Nodup)
    (r0 r1 r2 : JSObject α) (h1 : iterate rawPages r0 = some r1)
    (h2 : iterate rawPages r1 = some r2) :
    ((pages rawPages).map (fun p => |rankOf r2 p - rankOf r1 p|)).sum ≤
      damping * ((pages rawPages).map (fun p => |rankOf r1 p - rankOf r0 p|)).sum := by
  rw [← List.sum_toFinset _ hnodup, ← List.sum_toFinset _ hnodup]
  have hd := damping_nonneg (α := α)
  have hstep : ∀ t ∈ (pages rawPages).toFinset,
      |rankOf r2 t - rankOf r1 t| ≤
        damping * ∑ s in (pages rawPages).toFinset,
          weight rawPages s t * |rankOf r1 s - rankOf r0 s| := by
    intro t ht
    rw [List.mem_toFinset] at ht
    rw [rankOf_iterate rawPages r1 r2 h2 t ht, rankOf_iterate rawPages r0 r1 h1 t ht,
      ← List.sum_toFinset _ hnodup, ← List.sum_toFinset _ hnodup]
    have heq : (1 - damping) / ((pages rawPages).length : α) +
          damping * ∑ s in (pages rawPages).toFinset, weight rawPages s t * rankOf r1 s -
        ((1 - damping) / ((pages rawPages).length : α) +
          damping * ∑ s in (pages rawPages).toFinset, weight rawPages s t * rankOf r0 s) =
        damping * ∑ s in (pages rawPages).toFinset,
          weight rawPages s t * (rankOf r1 s - rankOf r0 s) := by
      simp only [mul_sub, Finset.sum_sub_distrib]
      ring
    rw [heq, abs_mul, abs_of_nonneg hd]
    apply mul_le_mul_of_nonneg_left _ hd
    refine le_trans (Finset.abs_sum_le_sum_abs _ _) (Finset.sum_le_sum ?_)
    intro s _
    rw [abs_mul, abs_of_nonneg (weight_nonneg rawPages s t)]
  calc ∑ t in (pages rawPages).toFinset, |rankOf r2 t - rankOf r1 t|
      ≤ ∑ t in (pages rawPages).toFinset, damping * ∑ s in (pages rawPages).toFinset,
          weight rawPages s t * |rankOf r1 s - rankOf r0 s| := Finset.sum_le_sum hstep
    _ = damping * ∑ s in (pages rawPages).toFinset,
          (∑ t in (pages rawPages).toFinset, weight rawPages s t) *
            |rankOf r1 s - rankOf r0 s| := by
        rw [← Finset.mul_sum, Finset.sum_comm]
        congr 1
        apply Finset.sum_congr rfl
        intro s _
        rw [Finset.sum_mul]
    _ ≤ damping * ∑ s in (pages rawPages).toFinset, |rankOf r1 s - rankOf r0 s| := by
        apply mul_le_mul_of_nonneg_left _ hd
        apply Finset.sum_le_sum
        intro s _
        have hw := sum_weight_le_one (α := α) rawPages s
        have habs : (0 : α) ≤ |rankOf r1 s - rankOf r0 s| := abs_nonneg _
        nlinarith

/-- C17: for raw pages with pairwise distinct URLs and every `k`, the
ranks after `k`, `k + 1` and `k + 2` passes exist, and the summed absolute
change of the ranks in pass `k + 2` is at most `damping` times the summed
absolute change in pass `k + 1`. -/
theorem rank_change_contracts (rawPages : List RawPage) (k : Nat)
    (hnodup : (pages rawPages).Nodup) :
    ∃ r0 r1 r2 : JSObject α,
      ranksAfter rawPages k = some r0 ∧ ranksAfter rawPages (k + 1) = some r1 ∧
      ranksAfter rawPages (k + 2) = some r2 ∧
      ((pages rawPages).map (fun p => |rankOf r2 p - rankOf r1 p|)).sum ≤
        damping * ((pages rawPages).map (fun p => |rankOf r1 p - rankOf r0 p|)).sum := by
  obtain ⟨r0, hr0, h0, _⟩ := ranksAfter_spec (α := α) rawPages k
  obtain ⟨r1, hi1, hinv1, _⟩ := iterate_spec rawPages r0 h0
  have h1 : RanksAtLeast (pages rawPages) 0 r1 := ranksAtLeast_mono _ _ 0 _ (base_nonneg _) hinv1
  obtain ⟨r2, hi2, _, _⟩ := iterate_spec rawPages r1 h1
  have hr1 : ranksAfter rawPages (k + 1) = some r1 := by
    simp only [ranksAfter, hr0]
    exact hi1
  have hr2 : ranksAfter rawPages (k + 2) = some r2 := by
    show ranksAfter rawPages ((k + 1) + 1) = some r2
    simp only [ranksAfter, hr0, hi1]
    exact hi2
  exact ⟨r0, r1, r2, hr0, hr1, hr2, change_contracts rawPages hnodup r0 r1 r2 hi1 hi2⟩

end C17

/-- Witness for C17: the pages with a dangling page, passes 0, 1 and 2, over
the rationals. -/
theorem rank_change_contracts_witness :
    (pages danglingPages).Nodup ∧
    ∃ r0 r1 r2 : JSObject ℚ,
      ranksAfter danglingPages 0 = some r0 ∧ ranksAfter danglingPages (0 + 1) = some r1 ∧
      ranksAfter danglingPages (0 + 2) = some r2 ∧
      ((pages danglingPages).map (fun p => |rankOf r2 p - rankOf r1 p|)).sum ≤
        damping * ((pages danglingPages).map (fun p => |rankOf r1 p - rankOf r0 p|)).sum :=
  ⟨by decide, rank_change_contracts danglingPages 0 (by decide)⟩



end SearchEngine
